import Mathlib

/-!
Verification development for the Jarvis session/plan subsystem.

We shallowly embed the relevant parts of the repository:
* `tools/terminal.py` — `ManagedTerminal` (sessions), `Workspace` (registry),
  `run_command`, `close_all`, module level helpers;
* `tools/file_system.py` — `write_file` sandbox containment;
* `main_controller.py` — `_parse_tool_call`, `_extract_tool_calls`,
  `_execute_plan`.

Strings are embedded as `List Char`; machine time (for the output-collection
loops) as `ℤ` (exact integer seconds).  Every definition is translated from the Python source; the
few definitions that follow the specification's words instead (generators and
comparison predicates used for refinement claims) say so in their doc string.
-/

namespace Jarvis

/-! ### Registry / Workspace state model (tools/terminal.py)

`ManagedTerminal.__init__` stores the name, marks `is_running = True` and
spawns the shell process; `close` sets `is_running = False` and terminates the
process tree.  `Workspace` keeps an insertion-ordered map `name → terminal`
(a Python `dict`), creating a `"default"` terminal in its constructor. -/

structure MTerm where
  name : String
  isRunning : Bool
deriving DecidableEq, Repr

/-- `ManagedTerminal.__init__`: a fresh terminal is running. -/
def newTerm (n : String) : MTerm := ⟨n, true⟩

/-- `ManagedTerminal.close`: marks the terminal not running (and terminates
the process tree — the only state visible in the embedding). -/
def closeTerm (t : MTerm) : MTerm := { t with isRunning := false }

structure Workspace where
  baseDirectory : String
  terminals : List (String × MTerm)
deriving DecidableEq, Repr

/-- `Workspace.create_terminal`: duplicate names are refused with an error
string and the map is unchanged; otherwise a new running terminal is
registered (Python dicts append new keys in insertion order). -/
def create_terminal (w : Workspace) (n : String) : Workspace × String :=
  if (w.terminals.map Prod.fst).contains n then
    (w, "Error: A terminal with the name '" ++ n ++ "' already exists.")
  else
    ({ w with terminals := w.terminals ++ [(n, newTerm n)] },
     "Terminal '" ++ n ++ "' created successfully.")

/-- `Workspace.__init__`: records the base directory, starts with an empty
map and immediately calls `create_terminal(name="default")`. -/
def init_workspace (base : String) : Workspace :=
  (create_terminal { baseDirectory := base, terminals := [] } "default").1

/-- `Workspace.run_in_terminal`: unknown names yield an error string,
otherwise the call is delegated to the named terminal.  The delegated
operation (`ManagedTerminal.run_command`) is passed in as `run` so that the
dispatch itself is observable. -/
def run_in_terminal (w : Workspace) (run : MTerm → String → String)
    (command : String) (name : String) : String :=
  match w.terminals.lookup name with
  | none => "Error: No terminal with the name '" ++ name ++ "' found."
  | some t => run t command

/-- `Workspace.run_in_terminal` invoked without an explicit name: the Python
default argument is `name = "default"`. -/
def run_in_terminal_default (w : Workspace) (run : MTerm → String → String)
    (command : String) : String :=
  run_in_terminal w run command "default"

/-- `Workspace.close_all(exclude)`: iterates over a snapshot of the map; a
name in `exclude` is kept untouched, every other terminal is closed and
deleted from the map.  Returns the resulting map together with the list of
closed terminals (in iteration order). -/
def close_all (terms : List (String × MTerm)) (exclude : List String) :
    List (String × MTerm) × List MTerm :=
  match terms with
  | [] => ([], [])
  | (n, t) :: rest =>
    let r := close_all rest exclude
    if exclude.contains n then ((n, t) :: r.1, r.2)
    else (r.1, closeTerm t :: r.2)

theorem close_all_keep (terms : List (String × MTerm)) (excl : List String) :
    (close_all terms excl).1 = terms.filter (fun p => excl.contains p.1) := by
  induction terms with
  | nil => rfl
  | cons p rest ih =>
    obtain ⟨n, t⟩ := p
    by_cases h : n ∈ excl <;> simp [close_all, h, ih]

theorem close_all_closed (terms : List (String × MTerm)) (excl : List String) :
    (close_all terms excl).2 =
      (terms.filter (fun p => !excl.contains p.1)).map (fun p => closeTerm p.2) := by
  induction terms with
  | nil => rfl
  | cons p rest ih =>
    obtain ⟨n, t⟩ := p
    by_cases h : n ∈ excl <;> simp [close_all, h, ih]

/-- **C9** — `Workspace.close_all` with a keep/exclude set closes and
deregisters exactly the sessions whose names are not in the set: the
resulting registry map is precisely the sub-map of kept names (those entries
unchanged), the closed sessions are exactly the non-kept ones, every closed
session is no longer running, and with an empty keep set the map is empty. -/
theorem close_all_spec (terms : List (String × MTerm)) (excl : List String) :
    (close_all terms excl).1 = terms.filter (fun p => excl.contains p.1)
    ∧ (close_all terms excl).2 =
        (terms.filter (fun p => !excl.contains p.1)).map (fun p => closeTerm p.2)
    ∧ ((close_all terms excl).2.all fun t => !t.isRunning) = true
    ∧ (close_all terms []).1 = [] := by
  refine ⟨close_all_keep terms excl, close_all_closed terms excl, ?_, ?_⟩
  · rw [close_all_closed]
    simp only [List.all_eq_true, List.mem_map]
    rintro x ⟨p, _, rfl⟩
    rfl
  · rw [close_all_keep]
    simp

/-- **C10** — a `Workspace` registers a running session named `"default"`
during its own construction; a run operation invoked without an explicit
session name dispatches to the `"default"` session (Python default argument);
a fresh registry therefore already holds one live session, and a subsequent
`create_terminal("default")` fails as a duplicate, leaving the map unchanged.
The last conjunct states the dispatch property for any registry that has a
`"default"` session. -/
theorem default_session_spec (base : String) (run : MTerm → String → String)
    (cmd : String) :
    (init_workspace base).terminals = [("default", ⟨"default", true⟩)]
    ∧ run_in_terminal_default (init_workspace base) run cmd
        = run ⟨"default", true⟩ cmd
    ∧ create_terminal (init_workspace base) "default"
        = (init_workspace base,
           "Error: A terminal with the name 'default' already exists.")
    ∧ (∀ (w : Workspace) (t : MTerm), w.terminals.lookup "default" = some t →
         run_in_terminal_default w run cmd = run t cmd) := by
  refine ⟨rfl, rfl, rfl, ?_⟩
  intro w t h
  simp [run_in_terminal_default, run_in_terminal, h]

/-- Witness for C10: the dispatch conjunct applied to a concrete registry. -/
theorem default_session_spec_witness :
    run_in_terminal_default (init_workspace "/ws")
      (fun t c => c ++ "@" ++ t.name) "ls" = "ls@default" :=
  (default_session_spec "/ws" (fun t c => c ++ "@" ++ t.name) "ls").2.2.2
    (init_workspace "/ws") ⟨"default", true⟩ (by decide)

/-! ### Character helpers (Python `\w`, `\s`, `str.strip`, `str.replace`) -/

/-- Python `\w` on ASCII input: letters, digits, underscore. -/
def isWordChar (c : Char) : Bool := c.isAlphanum || c = '_'

/-- Python `\s` on ASCII input. -/
def isSpaceChar (c : Char) : Bool :=
  c = ' ' || c = '\t' || c = '\n' || c = '\x0d' || c = '\x0b' || c = '\x0c'

/-- Python `str.strip()`: remove leading and trailing whitespace. -/
def pstrip (s : List Char) : List Char :=
  ((s.dropWhile isSpaceChar).reverse.dropWhile isSpaceChar).reverse

/-- Python slice `s[a:b]`. -/
def pslice (s : List Char) (a b : Nat) : List Char := (s.take b).drop a

/-- Python `str.replace(xy, rep)` for a two-character pattern `x,y`:
leftmost, non-overlapping, sequential. -/
def replace2 (x y : Char) (rep : List Char) : List Char → List Char
  | [] => []
  | [c] => [c]
  | c :: d :: rest =>
    if c = x ∧ d = y then rep ++ replace2 x y rep rest
    else c :: replace2 x y rep (d :: rest)

/-- First index at which `pat` occurs in `s` (Python `str.index` /
the regex engine's search for the closing delimiter of a non-greedy group). -/
def findSub (pat : List Char) : List Char → Option Nat
  | [] => if pat.isEmpty then some 0 else none
  | c :: rest =>
    if pat.isPrefixOf (c :: rest) then some 0 else (findSub pat rest).map (· + 1)

/-! ### Call parser (main_controller.py, `MainController._parse_tool_call`)

The argument regex is
`(\w+)\s*=\s*("""(.*?)"""|'''(.*?)'''|"(.*?)"|'(.*?)')` with `re.DOTALL`,
iterated with `finditer` and a gap check between consecutive matches.  We
embed the regex by hand: alternatives are tried in order at each position,
and the non-greedy `(.*?)` before a closing delimiter is a search for the
first later occurrence of that delimiter. -/

/-- One-character quote alternative `"(.*?)"` or `'(.*?)'`:
content plus total consumed length (content + two delimiters). -/
def tryDelim1 (q : Char) (s : List Char) : Option (List Char × Nat) :=
  match s with
  | c :: rest =>
    if c = q then (findSub [q] rest).map (fun i => (rest.take i, i + 2)) else none
  | [] => none

/-- Triple quote alternative `"""(.*?)"""` or `'''(.*?)'''`. -/
def tryDelim3 (q : Char) (s : List Char) : Option (List Char × Nat) :=
  if [q, q, q].isPrefixOf s then
    (findSub [q, q, q] (s.drop 3)).map (fun i => ((s.drop 3).take i, i + 6))
  else none

/-- The quoted-value alternation, in the regex's order (with backtracking:
a failed triple-quote branch falls through to the single-quote branches). -/
def quotedValue (s : List Char) : Option (List Char × Nat) :=
  match tryDelim3 '"' s with
  | some r => some r
  | none =>
    match tryDelim3 '\'' s with
    | some r => some r
    | none =>
      match tryDelim1 '"' s with
      | some r => some r
      | none => tryDelim1 '\'' s

/-- Attempted match of the whole argument pattern at the head of `s`:
returns key, raw (still escaped) value, and consumed length.  `\w+` and
`\s*` are maximal munches (word, space and `=` are disjoint character
classes, so the regex engine's backtracking never splits differently). -/
def matchArgAt (s : List Char) : Option (List Char × List Char × Nat) :=
  let key := s.takeWhile isWordChar
  if key.isEmpty then none
  else
    let t1 := s.drop key.length
    let sp1 := t1.takeWhile isSpaceChar
    match t1.drop sp1.length with
    | '=' :: t3 =>
      let sp2 := t3.takeWhile isSpaceChar
      let t4 := t3.drop sp2.length
      match quotedValue t4 with
      | some (v, consumed) =>
        some (key, v, key.length + sp1.length + 1 + sp2.length + consumed)
      | none => none
    | _ => none

/-- `finditer` over the argument string: scan left to right, at each position
try the argument pattern; on a match, emit the skipped gap (the text between
the previous match and this one), the key and the raw value, and resume after
the match.  Characters skipped after the last match are dropped, exactly as
in the source (the gap check only runs before a following match).
`fuel` bounds the number of loop iterations; each iteration consumes at
least one character (`rest.drop (consumed - 1)` is `s.drop consumed`, and
every match consumes at least four characters), so `fuel = s.length`, as
supplied by the `scanArgs` wrapper, always suffices. -/
def scanArgsF : Nat → List Char → List Char →
    List (List Char × List Char × List Char)
  | 0, _, _ => []
  | _, [], _ => []
  | fuel + 1, c :: rest, skip =>
    match matchArgAt (c :: rest) with
    | some (k, v, consumed) =>
      (skip.reverse, k, v) :: scanArgsF fuel (rest.drop (consumed - 1)) []
    | none => scanArgsF fuel rest (c :: skip)

/-- The `finditer` scan at its adequate fuel. -/
def scanArgs (s : List Char) (skip : List Char) :
    List (List Char × List Char × List Char) :=
  scanArgsF s.length s skip

/-- The unescaping applied to each parsed value:
`value.replace('\\n', '\n').replace('\\"', '"').replace("\\'", "'")`. -/
def unescapeValue (v : List Char) : List Char :=
  replace2 '\\' '\'' ['\'']
    (replace2 '\\' '"' ['"']
      (replace2 '\\' 'n' ['\n'] v))

/-- Python dict assignment `args[key] = value`: overwrite in place if the key
exists, else append (insertion order). -/
def updateOrAppend (args : List (List Char × List Char)) (k v : List Char) :
    List (List Char × List Char) :=
  match args with
  | [] => [(k, v)]
  | (k0, v0) :: rest =>
    if k0 = k then (k0, v) :: rest else (k0, v0) :: updateOrAppend rest k v

/-- The gap check and dict construction of `_parse_tool_call`'s `finditer`
loop: a non-empty, non-comma stripped gap before a match aborts with an
error; otherwise the key/value pair (value unescaped) is stored. -/
def buildArgs : List (List Char × List Char × List Char) →
    List (List Char × List Char) → Except (List Char) (List (List Char × List Char))
  | [], acc => .ok acc
  | (gap, k, v) :: rest, acc =>
    let u := pstrip gap
    if u ≠ [] ∧ u ≠ [','] then
      .error ("Could not parse argument segment: '".toList ++ u ++ "'".toList)
    else buildArgs rest (updateOrAppend acc k (unescapeValue v))

structure ToolCall where
  name : List Char
  args : List (List Char × List Char)
deriving DecidableEq, Repr

/-- The nested-parenthesis scan of `_parse_tool_call`: starting at the first
`(` with a running count, report the offset of the character at which the
count returns to zero (`last_paren_index - first_paren_index`), or `none`
when the count never returns to zero (raised as mismatched parentheses). -/
def parenScan : List Char → Int → Option Nat
  | [], _ => none
  | c :: rest, cnt =>
    let cnt' := if c = '(' then cnt + 1 else if c = ')' then cnt - 1 else cnt
    if cnt' = 0 then some 0 else (parenScan rest cnt').map (· + 1)

/-- `MainController._parse_tool_call`: leading identifier via
`re.match(r"(\w+)\(")`, nesting-aware span to the matching `)`, then the
argument `finditer` loop with gap checks, unescaping and dict insertion. -/
def parse_tool_call (s : List Char) : Except (List Char) ToolCall :=
  let name := s.takeWhile isWordChar
  if name.isEmpty || (s.drop name.length).head? ≠ some '(' then
    .error ("Could not parse tool name from: ".toList ++ s)
  else
    match findSub ['('] s with
    | none => .error ("Mismatched parentheses in tool call: ".toList ++ s)
    | some fp =>
      match parenScan (s.drop fp) 0 with
      | none => .error ("Mismatched parentheses in tool call: ".toList ++ s)
      | some i =>
        let argsStr := pstrip (pslice s (fp + 1) (fp + i))
        (buildArgs (scanArgs argsStr []) []).map (fun a => ⟨name, a⟩)

/-! ### Spec-side call generator

Modelled from the spec's wire format (§6, §8): a generated call string is
`identifier(key1="value", key2='value', key3="""multi\nline""")`, the writer
escaping newlines and the style's quote character with a backslash inside
single/double quotes, and writing the value verbatim inside triple quotes.
This generator is the spec's side of the round-trip claim C4; it is *not*
code of the repository. -/

inductive QuoteStyle | double | single | tripleD | tripleS
deriving DecidableEq, Repr

/-- Spec-side escaper: newlines become `\n`. -/
def escNl : List Char → List Char
  | [] => []
  | c :: r => if c = '\n' then '\\' :: 'n' :: escNl r else c :: escNl r

/-- Spec-side escaper: the quote character `q` becomes `\q`. -/
def escQuote (q : Char) : List Char → List Char
  | [] => []
  | c :: r => if c = q then '\\' :: q :: escQuote q r else c :: escQuote q r

/-- Spec-side escaping for a value in a given quoting style. -/
def escapeVal : QuoteStyle → List Char → List Char
  | .double, v => escNl (escQuote '"' v)
  | .single, v => escNl (escQuote '\'' v)
  | .tripleD, v => v
  | .tripleS, v => v

def styleDelim : QuoteStyle → List Char
  | .double => ['"']
  | .single => ['\'']
  | .tripleD => ['"', '"', '"']
  | .tripleS => ['\'', '\'', '\'']

/-- Spec-side rendering of one `key=<quoted value>` argument. -/
def renderArg (st : QuoteStyle) (k v : List Char) : List Char :=
  k ++ '=' :: (styleDelim st ++ escapeVal st v ++ styleDelim st)

/-- Spec-side rendering of an argument list, separated by `", "`. -/
def renderArgs : List (QuoteStyle × List Char × List Char) → List Char
  | [] => []
  | [(st, k, v)] => renderArg st k v
  | (st, k, v) :: rest => renderArg st k v ++ ',' :: ' ' :: renderArgs rest

/-- Spec-side rendering of a whole call string. -/
def renderCall (name : List Char)
    (args : List (QuoteStyle × List Char × List Char)) : List Char :=
  name ++ '(' :: (renderArgs args ++ [')'])

/-! ### Plan extractor (main_controller.py, `MainController._extract_tool_calls`)

`tool_pattern = r"(run_command|write_file|create_headless_terminal|start_server|launch_application)\("`.
The loop repeatedly runs `re.search` on `plan[cursor:]`, then counts
parenthesis nesting forward from the matched `(`; on balance the whole span
is appended and the cursor jumps past it; otherwise a warning is emitted and
the cursor resumes just past the unmatched `(`. -/

def toolVocab : List (List Char) :=
  ["run_command".toList, "write_file".toList, "create_headless_terminal".toList,
   "start_server".toList, "launch_application".toList]

/-- `re.search(tool_pattern, s)` on the remaining slice: leftmost position at
which some vocabulary name followed by `(` begins; returns
(`match.start`, `match.end`) relative to the slice. -/
def reSearchHead : List Char → Option (Nat × Nat)
  | [] => none
  | c :: rest =>
    match toolVocab.find? (fun v => (v ++ ['(']).isPrefixOf (c :: rest)) with
    | some v => some (0, v.length + 1)
    | none => (reSearchHead rest).map (fun p => (p.1 + 1, p.2 + 1))

theorem reSearchHead_pos {s : List Char} {st en : Nat}
    (h : reSearchHead s = some (st, en)) : st < en := by
  induction s generalizing st en with
  | nil => simp [reSearchHead] at h
  | cons c rest ih =>
    rw [reSearchHead] at h
    rcases hf : toolVocab.find? (fun v => (v ++ ['(']).isPrefixOf (c :: rest)) with _ | v <;>
      rw [hf] at h
    · rcases hr : reSearchHead rest with _ | ⟨a, b⟩ <;> rw [hr] at h
      · simp at h
      · simp only [Option.map_some', Option.some.injEq, Prod.mk.injEq] at h
        have := ih hr
        omega
    · simp only [Option.some.injEq, Prod.mk.injEq] at h
      omega

/-- The forward nesting count of the extractor, on the slice starting just
past the matched `(`, with entry level 1: returns how many characters were
consumed up to and including the balancing `)`, or `none` if the level never
returns to zero before the text ends. -/
def scanCloseRel : List Char → Int → Option Nat
  | [], level => if level = 0 then some 0 else none
  | c :: rest, level =>
    if level > 0 then
      let level' := if c = '(' then level + 1 else if c = ')' then level - 1 else level
      (scanCloseRel rest level').map (· + 1)
    else if level = 0 then some 0 else none

/-- The extractor's cursor loop, expressed on the remaining suffix of the
plan text (the source slices `plan[cursor:]` for the search and jumps the
cursor forward; both updates are suffix drops).  `fuel` bounds the number of
iterations; the cursor advances by at least one character per iteration
(`en ≥ 1` by `reSearchHead_pos`), so `fuel = plan.length`, as supplied by
`extract_tool_calls`, always suffices. -/
def extractLoopF : Nat → List Char → List (List Char)
  | 0, _ => []
  | fuel + 1, s =>
    match reSearchHead s with
    | none => []
    | some (st, en) =>
      match scanCloseRel (s.drop en) 1 with
      | some consumed =>
        pslice s st (en + consumed) :: extractLoopF fuel (s.drop (en + consumed))
      | none => extractLoopF fuel (s.drop en)

/-- `MainController._extract_tool_calls`. -/
def extract_tool_calls (plan : List Char) : List (List Char) :=
  extractLoopF plan.length plan

/-! ### Plan executor (main_controller.py, `MainController._execute_plan`)

The executor extracts the steps, then runs each step in an inner loop
`while not step_succeeded and step_retry_count < max_retries`.  Each attempt
parses the call (a parse failure becomes the step's error), dispatches it by
name to the agent's pass-through methods, and treats a returned text
containing `"ERROR:"` (case-insensitively) as a failure.  On failure the
remediation prompt is sent to the external planner; an empty corrected step
raises (aborting the run), otherwise the corrected text replaces the local
`task_string` and the loop retries.  After the inner loop the outer loop
always executes `step_index += 1`.  History entries are appended only in the
success branch.  The agent's tool methods and the planner are external
collaborators, abstracted as `handler` and `remediate`. -/

/-- `"ERROR:" in str(raw_result).upper()`. -/
def hasErrorMarker (r : List Char) : Bool :=
  (findSub "ERROR:".toList (r.map Char.toUpper)).isSome

/-- One execution attempt of a step: parse, dispatch (`handler` stands for
the `if/elif` chain calling the agent's methods; a missing argument or an
unknown tool name raises, i.e. yields `.error`), then the failure-marker
check on the returned text. -/
def attemptStep (handler : ToolCall → Except (List Char) (List Char))
    (task : List Char) : Except (List Char) (List Char) :=
  match parse_tool_call task with
  | .error e => .error ("Tool parsing failed: ".toList ++ e)
  | .ok call =>
    match handler call with
    | .error e => .error e
    | .ok r => if hasErrorMarker r then .error r else .ok r

def max_retries : Nat := 3

/-- The inner retry loop of `_execute_plan`, with
`fuel = max_retries - step_retry_count`.  Returns the number of attempts
executed together with `some (finalTask, result)` on success, or `none` when
the retry ceiling is exhausted (the loop condition fails and control falls
through); `.error` models the `raise` on an empty corrected step. -/
def stepLoop (handler : ToolCall → Except (List Char) (List Char))
    (remediate : List Char → List Char → List Char) :
    Nat → List Char → Except (List Char) (Nat × Option (List Char × List Char))
  | 0, _ => .ok (0, none)
  | fuel + 1, task =>
    match attemptStep handler task with
    | .ok r => .ok (1, some (task, r))
    | .error e =>
      let corrected := remediate task e
      if corrected = [] then
        .error "Debugger failed to provide a corrected step. Aborting.".toList
      else
        (stepLoop handler remediate fuel corrected).map (fun p => (p.1 + 1, p.2))

/-- The outer step loop: runs the retry loop for each extracted step; a
success appends `(task, result)` to the history; an exhausted retry ceiling
falls through and the loop advances to the next step regardless. -/
def execSteps (handler : ToolCall → Except (List Char) (List Char))
    (remediate : List Char → List Char → List Char) :
    List (List Char) → List (List Char × List Char) →
    Except (List Char) (List (List Char × List Char))
  | [], hist => .ok hist
  | task :: rest, hist =>
    match stepLoop handler remediate max_retries task with
    | .error m => .error m
    | .ok (_, some (t, r)) => execSteps handler remediate rest (hist ++ [(t, r)])
    | .ok (_, none) => execSteps handler remediate rest hist

/-- `MainController._execute_plan`: extract the steps (an empty extraction
raises), then run them; the returned value is the final execution history. -/
def execute_plan (handler : ToolCall → Except (List Char) (List Char))
    (remediate : List Char → List Char → List Char) (plan : List Char) :
    Except (List Char) (List (List Char × List Char)) :=
  let steps := extract_tool_calls plan
  if steps.isEmpty then
    .error "Planner returned a plan with no executable steps.".toList
  else execSteps handler remediate steps []

/-! ### Session output collection (tools/terminal.py, `ManagedTerminal.run_command`)

The reader threads push completed lines into `output_queue`; `run_command`
drains stale items, logs the echo line `"> {command}"` (which `log` itself
enqueues), writes `command + '\n'` to stdin, then loops on
`output_queue.get(timeout=1.0)`, breaking only when a `queue.Empty` poll
happens more than 2.0 seconds after the last received line.  The trace of
queue interactions is embedded as a list of timestamped events. -/

inductive QEvent
  | line (text : List Char) (t : ℤ)
  | empty (t : ℤ)
deriving DecidableEq, Repr

/-- The collection loop: a `line` event appends and resets the idle clock;
an `empty` poll more than 2.0s after the last output breaks (the loop
returns, flag `true`); a trace that ends without triggering the break leaves
the loop still running (flag `false`). -/
def collectLoop : List QEvent → ℤ → List (List Char) → List (List Char) × Bool
  | [], _, acc => (acc, false)
  | QEvent.line s t :: rest, _, acc => collectLoop rest t (acc ++ [s])
  | QEvent.empty t :: rest, last, acc =>
    if t - last > 2 then (acc, true) else collectLoop rest last acc

/-- `while not self.output_queue.empty(): self.output_queue.get()`. -/
def drainQueue : List (List Char) → List (List Char)
  | [] => []
  | _ :: rest => drainQueue rest

inductive RunResult
  | notRunning (msg : List Char)
  | ran (stdinPayload : List Char) (output : List (List Char)) (returned : Bool)
deriving DecidableEq, Repr

/-- `ManagedTerminal.run_command`: liveness check, stale-queue drain, echo
log (enqueued, hence received first by the collection loop), the write of
`command + '\n'` to stdin, then the collection loop started at time `t0`. -/
def run_command (isRunning alive : Bool) (stale : List (List Char))
    (command : List Char) (events : List QEvent) (t0 : ℤ) : RunResult :=
  if !isRunning || !alive then
    .notRunning "ERROR: Terminal is not running.".toList
  else
    let remainingStale := drainQueue stale
    let effEvents :=
      remainingStale.map (fun l => QEvent.line l t0)
        ++ QEvent.line ('>' :: ' ' :: command) t0 :: events
    let payload := command ++ ['\n']
    let r := collectLoop effEvents t0 []
    .ran payload r.1 r.2

/-- Modelled from the spec: the sentinel-based collector the spec describes
(`collects lines until a unique injected completion sentinel appears`),
stopping as soon as the sentinel line arrives.  Used only as the spec's side
of the refinement comparison in C3; the repository has no such code. -/
def collectLoopSentinelSpec (sentinel : List Char) :
    List QEvent → ℤ → List (List Char) → List (List Char) × Bool
  | [], _, acc => (acc, false)
  | QEvent.line s t :: rest, _, acc =>
    if s = sentinel then (acc, true)
    else collectLoopSentinelSpec sentinel rest t (acc ++ [s])
  | QEvent.empty _ :: rest, last, acc => collectLoopSentinelSpec sentinel rest last acc

/-! ### File-system sandbox (tools/file_system.py, `write_file`)

`full_path = os.path.join(workspace.base_directory, file_path)`;
`absolute_path = os.path.abspath(full_path)`; the write is refused unless
`absolute_path.startswith(os.path.abspath(workspace.base_directory))`; on
success `os.makedirs(os.path.dirname(absolute_path), exist_ok=True)` and the
file is written.  POSIX path arithmetic is embedded below; the base
directory is an absolute path, so `os.path.abspath` is `os.path.normpath`. -/

def splitSlash : List Char → List (List Char)
  | [] => [[]]
  | c :: rest =>
    match splitSlash rest with
    | [] => [[]]
    | h :: t => if c = '/' then [] :: h :: t else (c :: h) :: t

/-- The component loop of `posixpath.normpath` for a path with a leading
slash: empty and `.` components are dropped, `..` pops the previous
component (or is dropped at the root). -/
def normComps : List (List Char) → List (List Char) → List (List Char)
  | [], acc => acc.reverse
  | c :: rest, acc =>
    if c = [] ∨ c = ['.'] then normComps rest acc
    else if c = ['.', '.'] then
      match acc with
      | [] => normComps rest []
      | a :: acc2 =>
        if a = ['.', '.'] then normComps rest (c :: a :: acc2)
        else normComps rest acc2
    else normComps rest (c :: acc)

/-- `os.path.abspath` on an already-absolute path: `posixpath.normpath`. -/
def absPath (s : List Char) : List Char :=
  '/' :: List.intercalate ['/'] (normComps (splitSlash s) [])

/-- `posixpath.join` of a base and one further path. -/
def pyJoin (b r : List Char) : List Char :=
  if r.head? = some '/' then r
  else if b = [] ∨ b.getLast? = some '/' then b ++ r
  else b ++ '/' :: r

/-- `posixpath.dirname`. -/
def pyDirname (p : List Char) : List Char :=
  match p.reverse.findIdx? (· = '/') with
  | none => []
  | some k =>
    let head := p.take (p.length - k)
    if head ≠ [] ∧ head.any (· ≠ '/') then
      (head.reverse.dropWhile (· = '/')).reverse
    else head

inductive WriteOutcome
  | rejected (msg : List Char)
  | wrote (path : List Char) (dirsCreated : List Char) (content : List Char)
deriving DecidableEq, Repr

/-- `write_file(file_path, content)` against the active workspace's base
directory: join, resolve, string-prefix containment check; on success the
parent directories `dirsCreated` are created and the content written at
`path`. -/
def write_file (baseDirectory filePath content : List Char) : WriteOutcome :=
  let fullPath := pyJoin baseDirectory filePath
  let absolutePath := absPath fullPath
  if !(absPath baseDirectory).isPrefixOf absolutePath then
    .rejected ("ERROR: Path '".toList ++ filePath
      ++ "' is outside the allowed workspace. Access denied.".toList)
  else
    .wrote absolutePath (pyDirname absolutePath) content

/-- Modelled from the spec: `p` lies inside the working directory `base` —
it is the resolved directory itself or strictly below it.  The spec's side
of the containment comparison in C6. -/
def insideDir (base p : List Char) : Bool :=
  p = absPath base || (absPath base ++ ['/']).isPrefixOf p

/-! ### C6 — sandbox containment of `write_file` -/

/-- **C6 counterexample** — the containment check is a bare string-prefix
test on the resolved path, so a relative path escaping into a *sibling*
directory whose name extends the workspace name as a string is accepted:
with workspace `/ws/proj`, `write("../proj_evil/x", "x")` resolves to
`/ws/proj_evil/x`, which lies outside the working directory, yet the write
proceeds.  This refutes "rejects every path whose resolved absolute form
lies outside the active workspace's working directory". -/
theorem write_file_containment_cex :
    write_file "/ws/proj".toList "../proj_evil/x".toList "x".toList
      = .wrote "/ws/proj_evil/x".toList "/ws/proj_evil".toList "x".toList
    ∧ insideDir "/ws/proj".toList "/ws/proj_evil/x".toList = false := by
  constructor <;> decide

/-- **C6 (amended)** — `write_file` rejects exactly the paths whose resolved
absolute form fails the *string-prefix* test against the resolved workspace
directory: `write("../../etc/passwd", "x")` is rejected with an error and
nothing is written, `write("sub/dir/file.txt", "x")` succeeds creating the
intermediate directories, and every path that genuinely resolves inside the
working directory is accepted (the check has no false rejections); what the
original claim wrongly promised is the absence of false *acceptances*. -/
theorem write_file_containment_amended :
    write_file "/ws/proj".toList "../../etc/passwd".toList "x".toList
      = .rejected ("ERROR: Path '../../etc/passwd' is outside the allowed workspace. Access denied.".toList)
    ∧ write_file "/ws/proj".toList "sub/dir/file.txt".toList "x".toList
      = .wrote "/ws/proj/sub/dir/file.txt".toList "/ws/proj/sub/dir".toList "x".toList
    ∧ ∀ base rel c, insideDir base (absPath (pyJoin base rel)) = true →
        write_file base rel c
          = .wrote (absPath (pyJoin base rel)) (pyDirname (absPath (pyJoin base rel))) c := by
  refine ⟨by decide, by decide, ?_⟩
  intro base rel c h
  have hpre : (absPath base).isPrefixOf (absPath (pyJoin base rel)) = true := by
    rw [ List.isPrefixOf_iff_prefix]
    simp only [insideDir, Bool.or_eq_true, decide_eq_true_eq,
      List.isPrefixOf_iff_prefix] at h
    rcases h with h | h
    · rw [h]
    · exact (List.prefix_append _ _).trans h
  simp [write_file, hpre]

/-- Witness for C6 (amended): a concrete inside path is accepted. -/
theorem write_file_containment_amended_witness :
    write_file "/ws/proj".toList "notes/a.txt".toList "hi".toList
      = .wrote "/ws/proj/notes/a.txt".toList "/ws/proj/notes".toList "hi".toList :=
  write_file_containment_amended.2.2 "/ws/proj".toList "notes/a.txt".toList
    "hi".toList (by decide)

/-! ### C1 — retry ceiling and advancement in `_execute_plan` -/

/-- A dispatch in which the `run_command` handler always reports failure and
the `write_file` handler succeeds (concrete instantiation of the agent's
pass-through methods for the C1 counterexample). -/
def c1Handler : ToolCall → Except (List Char) (List Char) := fun c =>
  if c.name = "write_file".toList then .ok "done".toList else .error "boom".toList

/-- A remediation collaborator that always returns the same (still failing,
non-empty) corrected step. -/
def c1Remediate : List Char → List Char → List Char := fun _ _ =>
  "run_command(command=\"x\")".toList

/-- **C1 counterexample** — a two-step plan whose first step fails on every
attempt: after the retry ceiling is exhausted the run does *not* end with a
reported failure; the executor silently advances to the second step,
executes it, and the run finishes as a success whose history contains only
step 2.  This refutes both "the run ends with a reported failure carrying
the last error" and "the executor never advances to the next step of the
plan while the current step has not succeeded". -/
theorem execute_plan_advance_cex :
    execute_plan c1Handler c1Remediate
      "run_command(command=\"false\") write_file(file_path=\"a\", content=\"b\")".toList
      = .ok [("write_file(file_path=\"a\", content=\"b\")".toList, "done".toList)] := by
  rfl

/-- **C1 (amended)** — a step whose every execution attempt fails is
attempted exactly `max_retries` (3) times, a correction being requested
after each failure; if every correction is non-empty, the inner loop then
falls through with the step unfinished and the executor silently advances:
a plan all of whose steps always fail runs to completion reporting success
with an unchanged history (no run-level failure status is produced; the run
only aborts if the remediation collaborator returns an empty correction). -/
theorem execute_plan_retry_amended
    (handler : ToolCall → Except (List Char) (List Char))
    (remediate : List Char → List Char → List Char)
    (hfail : ∀ t, ∃ e, attemptStep handler t = .error e)
    (hfix : ∀ t e, remediate t e ≠ []) :
    (∀ task, stepLoop handler remediate max_retries task = .ok (3, none))
    ∧ (∀ tasks hist, execSteps handler remediate tasks hist = .ok hist) := by
  have hloop : ∀ fuel task,
      stepLoop handler remediate fuel task = .ok (fuel, none) := by
    intro fuel
    induction fuel with
    | zero => intro task; rfl
    | succ n ih =>
      intro task
      obtain ⟨e, he⟩ := hfail task
      rw [stepLoop, he]
      simp only [hfix task e, ite_false, if_neg (hfix task e)]
      rw [ih]
      rfl
  refine ⟨fun task => hloop max_retries task, ?_⟩
  intro tasks
  induction tasks with
  | nil => intro hist; rfl
  | cons task rest ih =>
    intro hist
    rw [execSteps, hloop max_retries task]
    exact ih hist

/-- An agent dispatch that fails on every tool call. -/
def c1FailHandler : ToolCall → Except (List Char) (List Char) := fun _ =>
  .error "boom".toList

/-- Witness for C1 (amended): with an always-failing dispatch and a
non-empty remediation, a one-step run completes with success and an empty
history, the step having been attempted exactly 3 times. -/
theorem execute_plan_retry_amended_witness :
    stepLoop c1FailHandler c1Remediate max_retries
        "run_command(command=\"false\")".toList = .ok (3, none)
    ∧ execSteps c1FailHandler c1Remediate
        ["run_command(command=\"false\")".toList] [] = .ok [] := by
  have h := execute_plan_retry_amended c1FailHandler c1Remediate
    (by
      intro t
      rcases hp : parse_tool_call t with e | c
      · exact ⟨"Tool parsing failed: ".toList ++ e, by rw [attemptStep, hp]⟩
      · exact ⟨"boom".toList, by rw [attemptStep, hp]; rfl⟩)
    (by intro t e; unfold c1Remediate; decide)
  exact ⟨h.1 _, h.2 _ _⟩

/-! ### C2 — termination behaviour of `run_command` -/

/-- `n` seconds of steady once-a-second output. -/
def steadyLines (n : Nat) : List QEvent :=
  (List.range n).map (fun k => QEvent.line "tick".toList (k : ℤ))

def isLineEvent : QEvent → Bool
  | .line _ _ => true
  | .empty _ => false

/-- The time of the last line received, the loop's `last_output_time`. -/
def lastLineTime (t0 : ℤ) : List QEvent → ℤ
  | [] => t0
  | QEvent.line _ t :: rest => lastLineTime t rest
  | QEvent.empty _ :: rest => lastLineTime t0 rest

/-- The texts of the line events of a trace, in order. -/
def lineTexts : List QEvent → List (List Char)
  | [] => []
  | QEvent.line s _ :: rest => s :: lineTexts rest
  | QEvent.empty _ :: rest => lineTexts rest

theorem collectLoop_all_lines (ev : List QEvent) :
    ∀ t0 acc, ev.all isLineEvent = true →
      collectLoop ev t0 acc = (acc ++ lineTexts ev, false) := by
  induction ev with
  | nil => intro t0 acc _; simp [collectLoop, lineTexts]
  | cons e rest ih =>
    intro t0 acc hall
    simp only [List.all_cons, Bool.and_eq_true] at hall
    cases e with
    | line s t =>
      rw [collectLoop, ih t (acc ++ [s]) hall.2]
      simp [lineTexts]
    | empty t => simp [isLineEvent] at hall

theorem collectLoop_idle_exit (pre : List QEvent) :
    ∀ t0 acc (t : ℤ) (post : List QEvent), pre.all isLineEvent = true →
      t - lastLineTime t0 pre > 2 →
      collectLoop (pre ++ QEvent.empty t :: post) t0 acc
        = (acc ++ lineTexts pre, true) := by
  induction pre with
  | nil =>
    intro t0 acc t post _ hgap
    simp only [lastLineTime] at hgap
    simp [collectLoop, hgap, lineTexts]
  | cons e rest ih =>
    intro t0 acc t post hall hgap
    simp only [List.all_cons, Bool.and_eq_true] at hall
    cases e with
    | line s u =>
      simp only [lastLineTime] at hgap
      rw [List.cons_append, collectLoop, ih u (acc ++ [s]) t post hall.2 hgap]
      simp [lineTexts]
    | empty u => simp [isLineEvent] at hall

theorem drainQueue_eq_nil (q : List (List Char)) : drainQueue q = [] := by
  induction q with
  | nil => rfl
  | cons _ rest ih => rw [drainQueue, ih]

/-- **C2 counterexample** — `ManagedTerminal.run_command` takes no outer
timeout argument at all, and its collection loop breaks only via the idle
condition: on a live session whose command keeps printing a line every
second, after 40 seconds of steady output the call has still not returned
(`returned = false`), refuting "in every case the call returns a timeout
failure no later than the outer timeout argument". -/
theorem run_command_no_outer_timeout_cex :
    run_command true true [] "sleep 999".toList (steadyLines 40) 0
      = .ran "sleep 999\n".toList
          (('>' :: ' ' :: "sleep 999".toList) :: List.replicate 40 "tick".toList)
          false := by
  decide

/-- **C2 (amended)** — `run_command` never blocks when the session goes
quiet: whatever stale queue is pending, once an empty poll happens more than
2.0 s (the idle window) after the last output the call returns *at that
poll* with the lines collected so far; but there is no outer timeout
parameter, and a command that keeps producing lines keeps the call from
returning for as long as the output lasts (no timeout failure is ever
produced). -/
theorem run_command_idle_amended (stale : List (List Char)) (cmd : List Char)
    (pre post events : List QEvent) (t t0 : ℤ)
    (hpre : pre.all isLineEvent = true)
    (hgap : t - lastLineTime t0 pre > 2)
    (hev : events.all isLineEvent = true) :
    run_command true true stale cmd (pre ++ QEvent.empty t :: post) t0
      = .ran (cmd ++ ['\n']) (('>' :: ' ' :: cmd) :: lineTexts pre) true
    ∧ run_command true true stale cmd events t0
      = .ran (cmd ++ ['\n']) (('>' :: ' ' :: cmd) :: lineTexts events) false := by
  constructor
  · rw [run_command]
    simp only [Bool.not_true, Bool.or_self, Bool.false_eq_true, if_false,
      drainQueue_eq_nil, List.map_nil, List.nil_append]
    rw [collectLoop, collectLoop_idle_exit pre t0 _ t post hpre hgap]
    rfl
  · rw [run_command]
    simp only [Bool.not_true, Bool.or_self, Bool.false_eq_true, if_false,
      drainQueue_eq_nil, List.map_nil, List.nil_append]
    rw [collectLoop, collectLoop_all_lines events _ _ hev]
    rfl

/-- Witness for C2 (amended), at a concrete stale queue, command and trace:
one output line at `t = 1`, then a quiet poll at `t = 4`. -/
theorem run_command_idle_amended_witness :
    run_command true true ["old".toList] "ls".toList
        [QEvent.line "a".toList 1, QEvent.empty 4] 0
      = .ran "ls\n".toList [('>' :: ' ' :: "ls".toList), "a".toList] true
    ∧ run_command true true ["old".toList] "ls".toList
        [QEvent.line "x".toList 1] 0
      = .ran "ls\n".toList [('>' :: ' ' :: "ls".toList), "x".toList] false := by
  have h := run_command_idle_amended ["old".toList] "ls".toList
    [QEvent.line "a".toList 1] [] [QEvent.line "x".toList 1] 4 0
    (by decide) (by norm_num [lastLineTime]) (by decide)
  exact ⟨h.1, h.2⟩

/-! ### C3 — sentinel versus idle-window completion detection -/

def c3Trace : List QEvent :=
  [QEvent.line "DONE".toList 0, QEvent.line "late".toList 1, QEvent.empty 4]

/-- **C3 counterexample** — the stdin payload is exactly `command + '\n'`,
so no completion sentinel is ever injected, and the collection loop keeps
collecting past every line (here past `"DONE"`, which a sentinel collector
would stop at), returning only via the idle window; the source collector
and the spec's sentinel collector disagree on this concrete trace.  This
refutes "stops collecting output lines as soon as a unique injected
completion sentinel appears in the stream". -/
theorem run_command_sentinel_cex :
    run_command true true [] "echo hi".toList c3Trace 0
      = .ran "echo hi\n".toList
          [('>' :: ' ' :: "echo hi".toList), "DONE".toList, "late".toList] true
    ∧ collectLoopSentinelSpec "DONE".toList c3Trace 0 [] = ([], true)
    ∧ (collectLoop c3Trace 0 []).1 ≠ (collectLoopSentinelSpec "DONE".toList c3Trace 0 []).1 := by
  refine ⟨by decide, by decide, by decide⟩

/-- **C3 (amended)** — `run_command` first drains any stale queued output
(so the result is independent of the stale queue), writes the command plus
one line terminator — and nothing else — to the process's stdin, and then
detects completion for *every* command by the no-new-output idle window
alone: the collection loop consumes every line regardless of its content,
and whenever it returns, it does so at an empty poll that happened more
than 2.0 s after the last output.  No sentinel is injected or detected. -/
theorem run_command_no_sentinel_amended (stale : List (List Char))
    (cmd : List Char) (ev : List QEvent) (t0 : ℤ) :
    run_command true true stale cmd ev t0 = run_command true true [] cmd ev t0
    ∧ run_command true true stale cmd ev t0
        = .ran (cmd ++ ['\n'])
            (collectLoop (QEvent.line ('>' :: ' ' :: cmd) t0 :: ev) t0 []).1
            (collectLoop (QEvent.line ('>' :: ' ' :: cmd) t0 :: ev) t0 []).2
    ∧ (∀ s t rest acc, collectLoop (QEvent.line s t :: rest) t0 acc
        = collectLoop rest t (acc ++ [s]))
    ∧ (∀ ev2 acc, (collectLoop ev2 t0 acc).2 = true →
        ∃ pre t post, ev2 = pre ++ QEvent.empty t :: post
          ∧ t - lastLineTime t0 pre > 2) := by
  refine ⟨?_, ?_, fun s t rest acc => rfl, ?_⟩
  · rw [run_command, run_command, drainQueue_eq_nil]
    rfl
  · rw [run_command, drainQueue_eq_nil]
    rfl
  · intro ev2
    induction ev2 generalizing t0 with
    | nil => intro acc h; simp [collectLoop] at h
    | cons e rest ih =>
      intro acc h
      cases e with
      | line s t =>
        rw [collectLoop] at h
        obtain ⟨pre, u, post, hsplit, hgap⟩ := ih t (acc ++ [s]) h
        exact ⟨QEvent.line s t :: pre, u, post, by rw [hsplit, List.cons_append],
          by simpa [lastLineTime] using hgap⟩
      | empty t =>
        rw [collectLoop] at h
        by_cases hg : t - t0 > 2
        · exact ⟨[], t, rest, rfl, by simpa [lastLineTime] using hg⟩
        · rw [if_neg hg] at h
          obtain ⟨pre, u, post, hsplit, hgap⟩ := ih t0 acc h
          exact ⟨QEvent.empty t :: pre, u, post, by rw [hsplit, List.cons_append],
            by simpa [lastLineTime] using hgap⟩

/-- Witness for C3 (amended): the exit characterization applied to a
concrete returning trace. -/
theorem run_command_no_sentinel_amended_witness :
    ∃ pre t post, [QEvent.empty (3 : ℤ)] = pre ++ QEvent.empty t :: post
      ∧ t - lastLineTime 0 pre > 2 :=
  (run_command_no_sentinel_amended [] "ls".toList [] 0).2.2.2
    [QEvent.empty 3] [] (by decide)

/-! ### Shared lemmas on the parser's scanning primitives -/

/-- Nesting balance of a character list: the depth after reading `s` from
depth `d`, or `none` if the depth ever dips below zero.  `balAux s 0 = some 0`
is the well-balancedness hypothesis of the round-trip and extraction claims. -/
def balAux : List Char → Nat → Option Nat
  | [], d => some d
  | c :: r, d =>
    if c = '(' then balAux r (d + 1)
    else if c = ')' then
      if d = 0 then none else balAux r (d - 1)
    else balAux r d

theorem wordChar_ne_paren {c : Char} (h : isWordChar c = true) :
    c ≠ '(' ∧ c ≠ ')' := by
  constructor <;> rintro rfl <;> exact absurd h (by decide)

theorem takeWhile_append_stop {p : Char → Bool} (l : List Char) (x : Char)
    (t : List Char) (hl : l.all p = true) (hx : p x = false) :
    (l ++ x :: t).takeWhile p = l := by
  induction l with
  | nil => simp [List.takeWhile_cons, hx]
  | cons c l' ih =>
    simp only [List.all_cons, Bool.and_eq_true] at hl
    simp [List.takeWhile_cons, hl.1, ih hl.2]

theorem findSub_boundary (q : Char) (qs l t : List Char)
    (hl : ∀ c ∈ l, c ≠ q) :
    findSub (q :: qs) (l ++ (q :: qs) ++ t) = some l.length := by
  induction l with
  | nil =>
    have : (q :: qs).isPrefixOf ((q :: qs) ++ t) = true := by
      rw [ List.isPrefixOf_iff_prefix]
      exact List.prefix_append _ _
    simp [findSub, this]
  | cons c l' ih =>
    have hbeq : (q == c) = false := by
      rw [beq_eq_false_iff_ne]
      exact fun h => (hl c (List.mem_cons_self c l')) h.symm
    have hq : ((q :: qs).isPrefixOf (c :: (l' ++ (q :: qs) ++ t))) = false := by
      simp [List.isPrefixOf, hbeq]
    have ih' := ih (fun x hx => hl x (List.mem_cons_of_mem _ hx))
    have hunf : findSub (q :: qs) (c :: (l' ++ (q :: qs) ++ t))
        = if (q :: qs).isPrefixOf (c :: (l' ++ (q :: qs) ++ t)) then some 0
          else (findSub (q :: qs) (l' ++ (q :: qs) ++ t)).map (· + 1) := rfl
    simp only [List.cons_append] at hq hunf ⊢
    rw [hunf, hq]
    simp only [Bool.false_eq_true, if_false]
    rw [ih']
    simp

theorem parenScan_balanced (body : List Char) :
    ∀ (n m : Nat) (rest : List Char) (cnt : Int), balAux body n = some m →
      (n : Int) < cnt →
      parenScan (body ++ rest) cnt
        = (parenScan rest (cnt - n + m)).map (· + body.length) := by
  induction body with
  | nil =>
    intro n m rest cnt hb hlt
    simp only [balAux, Option.some.injEq] at hb
    subst hb
    have hcc : (cnt - n + n : Int) = cnt := by omega
    rw [List.nil_append, hcc]
    rcases hp : parenScan rest cnt with _ | k <;> simp [hp]
  | cons c cs ih =>
    intro n m rest cnt hb hlt
    have hn : (0 : Int) ≤ n := Int.ofNat_nonneg n
    by_cases hop : c = '('
    · subst hop
      rw [balAux, if_pos rfl] at hb
      rw [List.cons_append, parenScan]
      have h1 : ¬ ((cnt + 1 : Int) = 0) := by omega
      simp only [ite_true, ite_false, eq_self_iff_true, h1, if_false]
      rw [ih (n + 1) m rest (cnt + 1) hb (by push_cast; omega)]
      have hcc : (cnt + 1 - (n + 1 : Nat) + m : Int) = cnt - n + m := by
        push_cast
        ring
      rw [hcc]
      rcases hp : parenScan rest (cnt - n + m) with _ | k <;> simp [hp] <;> omega
    · by_cases hcl : c = ')'
      · subst hcl
        rw [balAux, if_neg (by decide : ¬ (')' = '(')), if_pos rfl] at hb
        cases n with
        | zero => simp at hb
        | succ k =>
          simp only [Nat.succ_ne_zero, if_false, Nat.succ_sub_one] at hb
          rw [List.cons_append, parenScan]
          have h1 : ¬ ((cnt - 1 : Int) = 0) := by push_cast at hlt; omega
          simp only [if_neg hop, ite_true, ite_false, eq_self_iff_true, h1, if_false]
          rw [ih k m rest (cnt - 1) hb (by push_cast at hlt ⊢; omega)]
          have hcc : (cnt - 1 - k + m : Int) = cnt - (k + 1 : Nat) + m := by
            push_cast
            ring
          rw [hcc]
          rcases hp : parenScan rest (cnt - (k + 1 : Nat) + m) with _ | j <;>
            simp [hp] <;> omega
      · rw [balAux, if_neg hop, if_neg hcl] at hb
        rw [List.cons_append, parenScan]
        have h1 : ¬ (cnt = 0) := by omega
        simp only [if_neg hop, if_neg hcl, h1, if_false]
        rw [ih n m rest cnt hb hlt]
        rcases hp : parenScan rest (cnt - n + m) with _ | j <;> simp [hp] <;> omega

theorem balAux_nonparen (body : List Char)
    (hb : ∀ c ∈ body, c ≠ '(' ∧ c ≠ ')') : ∀ n, balAux body n = some n := by
  induction body with
  | nil => intro n; rfl
  | cons c cs ih =>
    intro n
    have hc := hb c (List.mem_cons_self c cs)
    rw [balAux, if_neg hc.1, if_neg hc.2]
    exact ih (fun x hx => hb x (List.mem_cons_of_mem _ hx)) n

theorem pslice_append (a b c : List Char) :
    pslice (a ++ b ++ c) a.length (a.length + b.length) = b := by
  rw [pslice, List.append_assoc, List.take_append, List.take_left, List.drop_left]

/-- Decomposition of `_parse_tool_call` on a well-shaped call string
`name(body)` with a word-character name and a balanced body: the result is
whatever the argument loop makes of the stripped body. -/
theorem parse_call_shape (name body : List Char)
    (hname : name ≠ []) (hword : name.all isWordChar = true)
    (hbal : balAux body 0 = some 0) :
    parse_tool_call (name ++ '(' :: (body ++ [')']))
      = (buildArgs (scanArgs (pstrip body) []) []).map
          (fun a => ⟨name, a⟩) := by
  have hnp : ∀ c ∈ name, c ≠ '(' :=
    fun c hc => (wordChar_ne_paren (by
      rw [List.all_eq_true] at hword
      exact hword c hc)).1
  have htw : (name ++ '(' :: (body ++ [')'])).takeWhile isWordChar = name :=
    takeWhile_append_stop name '(' (body ++ [')']) hword (by decide)
  have hdrop : (name ++ '(' :: (body ++ [')'])).drop name.length
      = '(' :: (body ++ [')']) := List.drop_left name _
  have hfind : findSub ['('] (name ++ '(' :: (body ++ [')'])) = some name.length := by
    have := findSub_boundary '(' [] name (body ++ [')']) hnp
    simpa using this
  have hscan : parenScan ('(' :: (body ++ [')'])) 0 = some (body.length + 1) := by
    have hstep : parenScan ('(' :: (body ++ [')'])) 0
        = (parenScan (body ++ [')']) 1).map (· + 1) := by
      rw [parenScan]
      simp
    rw [hstep, parenScan_balanced body 0 0 [')'] 1 hbal (by norm_num)]
    have hp1 : parenScan [')'] (1 : Int) = some 0 := by decide
    norm_num [hp1]
  have h0 : name.isEmpty = false := by
    cases name with
    | nil => exact absurd rfl hname
    | cons a l => rfl
  have hsl : pslice (name ++ '(' :: (body ++ [')'])) (name.length + 1)
      (name.length + (body.length + 1)) = body := by
    have h := pslice_append (name ++ ['(']) body [')']
    have e1 : name ++ '(' :: (body ++ [')']) = (name ++ ['(']) ++ body ++ [')'] := by
      simp
    rw [e1]
    convert h using 2 <;> simp [List.length_append] <;> omega
  rw [parse_tool_call]
  simp only [htw, hdrop, List.head?_cons, hfind, hscan, h0, hsl]
  norm_num

/-! ### C5 — behaviour on a non-empty body with no matching argument -/

/-- **C5 counterexample** — the parser has no `NoArgumentsParsed` check:
for the call string `f(xyz)`, whose parenthesized body is non-empty but in
which no `key=value` argument matches, it returns a successful `Call` with
an empty argument map instead of an error. -/
theorem parse_no_args_cex :
    parse_tool_call "f(xyz)".toList = .ok ⟨"f".toList, []⟩ := by rfl

/-- **C5 (amended)** — a non-empty argument body in which no `key=value`
argument matches yields a successful `Call` with an empty argument map; the
parser's only argument-level error is the unparsed-gap check, which fires
when non-comma text precedes a *matched* argument (second conjunct). -/
theorem parse_no_args_amended (name body : List Char)
    (hname : name ≠ []) (hword : name.all isWordChar = true)
    (hbody : ∀ c ∈ body, c ≠ '(' ∧ c ≠ ')')
    (hnomatch : scanArgs (pstrip body) [] = []) :
    parse_tool_call (name ++ '(' :: (body ++ [')'])) = .ok ⟨name, []⟩
    ∧ parse_tool_call "f(junk key=\"v\")".toList
        = .error "Could not parse argument segment: 'junk'".toList := by
  refine ⟨?_, by rfl⟩
  rw [parse_call_shape name body hname hword (balAux_nonparen body hbody 0), hnomatch]
  rfl

/-- Witness for C5 (amended): the concrete call string `f(xyz)`. -/
theorem parse_no_args_amended_witness :
    parse_tool_call ("f".toList ++ '(' :: ("xyz".toList ++ [')'])) = .ok ⟨"f".toList, []⟩ :=
  (parse_no_args_amended "f".toList "xyz".toList (by decide) (by decide)
    (by decide) (by rfl)).1

/-! ### C4 — round-trip of the call generator and parser

Machinery: properties of the spec-side escapers, of `balAux`, of `pstrip`,
and the behaviour of the argument regex on a rendered argument. -/

/-- The per-style value condition of the amended round-trip: no backslash
(the unescaper rewrites every backslash pair), not the style's own quote
character (the non-greedy capture stops at its first occurrence; the other
quote character is fine), and balanced parentheses (for the outer span
scan).  Inside single/double quotes newlines are escaped by the generator;
inside triple quotes they are raw. -/
def styleOk : QuoteStyle → List Char → Prop
  | .double, v => '\\' ∉ v ∧ '"' ∉ v ∧ balAux v 0 = some 0
  | .single, v => '\\' ∉ v ∧ '\'' ∉ v ∧ balAux v 0 = some 0
  | .tripleD, v => '\\' ∉ v ∧ '"' ∉ v ∧ balAux v 0 = some 0
  | .tripleS, v => '\\' ∉ v ∧ '\'' ∉ v ∧ balAux v 0 = some 0

instance : ∀ st v, Decidable (styleOk st v) := by
  intro st v
  cases st <;> exact inferInstanceAs (Decidable (_ ∧ _ ∧ _))

theorem escQuote_id (q : Char) (v : List Char) (h : q ∉ v) :
    escQuote q v = v := by
  induction v with
  | nil => rfl
  | cons c rest ih =>
    rw [escQuote,
      if_neg (fun hc => h (by rw [← hc]; exact List.mem_cons_self c rest))]
    rw [ih (fun hc => h (List.mem_cons_of_mem _ hc))]

theorem escNl_mem {c : Char} {v : List Char} (h : c ∈ escNl v) :
    c ∈ v ∨ c = '\\' ∨ c = 'n' := by
  induction v with
  | nil => simp [escNl] at h
  | cons d rest ih =>
    rw [escNl] at h
    by_cases hd : d = '\n'
    · rw [if_pos hd] at h
      rcases List.mem_cons.mp h with h1 | h2
      · exact Or.inr (Or.inl h1)
      · rcases List.mem_cons.mp h2 with h3 | h4
        · exact Or.inr (Or.inr h3)
        · rcases ih h4 with h' | h'
          · exact Or.inl (List.mem_cons_of_mem _ h')
          · exact Or.inr h'
    · rw [if_neg hd] at h
      rcases List.mem_cons.mp h with h1 | h2
      · exact Or.inl (by rw [h1]; exact List.mem_cons_self d rest)
      · rcases ih h2 with h' | h'
        · exact Or.inl (List.mem_cons_of_mem _ h')
        · exact Or.inr h'

theorem escNl_ne_nil_of_ne_nil {v : List Char} (h : v ≠ []) : escNl v ≠ [] := by
  cases v with
  | nil => exact absurd rfl h
  | cons c rest =>
    rw [escNl]
    by_cases hc : c = '\n' <;> simp [hc]

theorem replace2_id (x y : Char) (rep s : List Char) (hx : x ∉ s) :
    replace2 x y rep s = s := by
  induction s with
  | nil => rfl
  | cons c rest ih =>
    cases rest with
    | nil => rfl
    | cons d rest' =>
      have hcx : ¬ (c = x) := fun h => hx (h ▸ List.mem_cons_self c _)
      rw [replace2, if_neg (fun hcd => hcx hcd.1)]
      rw [ih (fun h => hx (List.mem_cons_of_mem _ h))]

theorem replace2_escNl (v : List Char) (hb : '\\' ∉ v) :
    replace2 '\\' 'n' ['\n'] (escNl v) = v := by
  induction v with
  | nil => rfl
  | cons c rest ih =>
    have hb' : '\\' ∉ rest := fun h => hb (List.mem_cons_of_mem _ h)
    rw [escNl]
    by_cases hc : c = '\n'
    · rw [if_pos hc]
      rw [replace2, if_pos ⟨rfl, rfl⟩, ih hb']
      rw [hc]
      rfl
    · rw [if_neg hc]
      have hcx : ¬ (c = '\\') := fun h => hb (h ▸ List.mem_cons_self c _)
      rcases hrest : escNl rest with _ | ⟨e, es⟩
      · cases rest with
        | nil => rfl
        | cons d r' => exact absurd hrest (escNl_ne_nil_of_ne_nil (by simp))
      · rw [replace2, if_neg (fun hcd => hcx hcd.1), ← hrest, ih hb']

theorem unescape_escNl (v : List Char) (hb : '\\' ∉ v) :
    unescapeValue (escNl v) = v := by
  rw [unescapeValue, replace2_escNl v hb, replace2_id _ _ _ _ hb,
    replace2_id _ _ _ _ hb]

theorem unescape_id (v : List Char) (hb : '\\' ∉ v) :
    unescapeValue v = v := by
  rw [unescapeValue, replace2_id _ _ _ _ hb, replace2_id _ _ _ _ hb,
    replace2_id _ _ _ _ hb]

/-- `unescape (escape v) = v` for values admitted by the style condition. -/
theorem unescape_escape (st : QuoteStyle) (v : List Char) (hv : styleOk st v) :
    unescapeValue (escapeVal st v) = v := by
  cases st with
  | double =>
    rw [escapeVal, escQuote_id '"' v hv.2.1]
    exact unescape_escNl v hv.1
  | single =>
    rw [escapeVal, escQuote_id '\'' v hv.2.1]
    exact unescape_escNl v hv.1
  | tripleD => exact unescape_id v hv.1
  | tripleS => exact unescape_id v hv.1

theorem balAux_append (x y : List Char) :
    ∀ d, balAux (x ++ y) d = (balAux x d).bind (fun e => balAux y e) := by
  induction x with
  | nil => intro d; rfl
  | cons c rest ih =>
    intro d
    rw [List.cons_append, balAux, balAux]
    by_cases hop : c = '('
    · rw [if_pos hop, if_pos hop, ih]
    · rw [if_neg hop, if_neg hop]
      by_cases hcl : c = ')'
      · rw [if_pos hcl, if_pos hcl]
        by_cases hd : d = 0
        · rw [if_pos hd, if_pos hd]
          rfl
        · rw [if_neg hd, if_neg hd, ih]
      · rw [if_neg hcl, if_neg hcl, ih]

theorem balAux_shift (v : List Char) :
    ∀ n m j, balAux v n = some m → balAux v (n + j) = some (m + j) := by
  induction v with
  | nil =>
    intro n m j h
    simp only [balAux, Option.some.injEq] at h ⊢
    omega
  | cons c rest ih =>
    intro n m j h
    rw [balAux] at h ⊢
    by_cases hop : c = '('
    · rw [if_pos hop] at h ⊢
      have := ih (n + 1) m j h
      rw [show n + 1 + j = n + j + 1 by omega] at this
      exact this
    · rw [if_neg hop] at h ⊢
      by_cases hcl : c = ')'
      · rw [if_pos hcl] at h ⊢
        by_cases hn : n = 0
        · rw [if_pos hn] at h
          exact absurd h (by simp)
        · rw [if_neg hn] at h
          rw [if_neg (by omega : ¬ (n + j = 0))]
          have := ih (n - 1) m j h
          rw [show n + j - 1 = n - 1 + j by omega]
          exact this
      · rw [if_neg hcl] at h ⊢
        exact ih n m j h

theorem balAux_escNl (v : List Char) : ∀ d, balAux (escNl v) d = balAux v d := by
  induction v with
  | nil => intro d; rfl
  | cons c rest ih =>
    intro d
    rw [escNl]
    by_cases hc : c = '\n'
    · rw [if_pos hc, hc]
      rw [balAux, if_neg (by decide), if_neg (by decide)]
      rw [balAux, if_neg (by decide), if_neg (by decide)]
      rw [balAux, if_neg (by decide), if_neg (by decide)]
      exact ih d
    · rw [if_neg hc, balAux, balAux]
      by_cases hop : c = '('
      · rw [if_pos hop, if_pos hop, ih]
      · rw [if_neg hop, if_neg hop]
        by_cases hcl : c = ')'
        · rw [if_pos hcl, if_pos hcl]
          by_cases hd : d = 0
          · rw [if_pos hd, if_pos hd]
          · rw [if_neg hd, if_neg hd, ih]
        · rw [if_neg hcl, if_neg hcl, ih]

theorem wordChar_not_space {c : Char} (h : isWordChar c = true) :
    isSpaceChar c = false := by
  by_contra hs
  rw [Bool.not_eq_false] at hs
  simp only [isSpaceChar, Bool.or_eq_true, decide_eq_true_eq] at hs
  rcases hs with ((((h1 | h1) | h1) | h1) | h1) | h1 <;>
    · subst h1
      exact absurd h (by decide)

theorem dropWhile_id_of_head {p : Char → Bool} (s : List Char)
    (h : ∀ c, s.head? = some c → p c = false) : s.dropWhile p = s := by
  cases s with
  | nil => rfl
  | cons c rest =>
    rw [List.dropWhile_cons, h c rfl]
    simp

theorem pstrip_no_edge (s : List Char)
    (h1 : ∀ c, s.head? = some c → isSpaceChar c = false)
    (h2 : ∀ c, s.getLast? = some c → isSpaceChar c = false) : pstrip s = s := by
  rw [pstrip, dropWhile_id_of_head s h1, dropWhile_id_of_head s.reverse
    (fun c hc => h2 c (by rwa [← List.head?_reverse])), List.reverse_reverse]

/-! Behaviour of the embedded argument regex on one rendered argument. -/

theorem matchArgAt_not_word (c : Char) (rest : List Char)
    (hc : isWordChar c = false) : matchArgAt (c :: rest) = none := by
  simp [matchArgAt, List.takeWhile_cons, hc]

/-- The whole-pattern match given a successful quoted-value match right
after `key=` (no inner whitespace, as the generator emits none). -/
theorem matchArgAt_eq_of (k u val : List Char) (consumed : Nat)
    (hk : k ≠ []) (hkw : k.all isWordChar = true)
    (hu : ∀ c, u.head? = some c → isSpaceChar c = false)
    (hq : quotedValue u = some (val, consumed)) :
    matchArgAt (k ++ '=' :: u) = some (k, val, k.length + 1 + consumed) := by
  have hke : k.isEmpty = false := by
    cases k with
    | nil => exact absurd rfl hk
    | cons a l => rfl
  have htk : (k ++ '=' :: u).takeWhile isWordChar = k :=
    takeWhile_append_stop k '=' u hkw (by decide)
  have hsp2 : u.takeWhile isSpaceChar = [] := by
    cases u with
    | nil => rfl
    | cons c rest => rw [List.takeWhile_cons, hu c rfl]; rfl
  simp only [matchArgAt, htk, hke, Bool.false_eq_true, if_false, List.drop_left,
    List.takeWhile_cons, show isSpaceChar '=' = false by decide, List.length_nil,
    List.drop_zero, hsp2, hq]

theorem quotedValue_delim1 (q other : Char) (esc t : List Char)
    (hq3 : tryDelim3 '"' (q :: (esc ++ q :: t)) = none)
    (hq3' : tryDelim3 '\'' (q :: (esc ++ q :: t)) = none)
    (hdq : (q = '"' ∧ other = '\'') ∨ (q = '\'' ∧ other = '"'))
    (hesc : q ∉ esc) :
    quotedValue (q :: (esc ++ q :: t)) = some (esc, esc.length + 2) := by
  have hfind : findSub [q] (esc ++ q :: t) = some esc.length := by
    have h := findSub_boundary q [] esc t (fun c hc h2 => hesc (h2 ▸ hc))
    simpa using h
  have h1 : tryDelim1 q (q :: (esc ++ q :: t)) = some (esc, esc.length + 2) := by
    rw [tryDelim1, if_pos rfl, hfind]
    simp [List.take_left]
  rcases hdq with ⟨rfl, rfl⟩ | ⟨rfl, rfl⟩
  · rw [quotedValue, hq3, hq3', h1]
  · have h1' : tryDelim1 '"' ('\'' :: (esc ++ '\'' :: t)) = none := by
      rw [tryDelim1, if_neg (by decide)]
    rw [quotedValue, hq3, hq3', h1', h1]

theorem tryDelim3_short_head (q : Char) (esc t : List Char)
    (hesc : q ∉ esc) (ht : t = [] ∨ t.head? = some ',') (hqc : q ≠ ',') :
    tryDelim3 q (q :: (esc ++ q :: t)) = none := by
  rw [tryDelim3]
  cases esc with
  | cons e es =>
    have he : ¬ (q = e) := fun h => hesc (by rw [h]; exact List.mem_cons_self e es)
    rw [if_neg]
    simp only [List.cons_append, List.isPrefixOf, Bool.and_eq_true, beq_iff_eq]
    rintro ⟨-, he', -⟩
    exact he he'
  | nil =>
    rw [if_neg]
    simp only [List.nil_append, List.isPrefixOf, Bool.and_eq_true, beq_iff_eq]
    rintro ⟨-, -, hrest⟩
    rcases ht with rfl | hh
    · simp [List.isPrefixOf] at hrest
    · cases t with
      | nil => simp [List.isPrefixOf] at hrest
      | cons c t' =>
        simp only [List.head?_cons, Option.some.injEq] at hh
        simp only [List.isPrefixOf, Bool.and_eq_true, beq_iff_eq] at hrest
        subst hh
        exact absurd hrest.1 hqc

theorem tryDelim3_wrong_head (q c : Char) (rest : List Char) (h : q ≠ c) :
    tryDelim3 q (c :: rest) = none := by
  rw [tryDelim3, if_neg]
  simp only [List.isPrefixOf, Bool.and_eq_true, beq_iff_eq]
  rintro ⟨h', -⟩
  exact h h'

theorem tryDelim1_wrong_head (q c : Char) (rest : List Char) (h : ¬ (c = q)) :
    tryDelim1 q (c :: rest) = none := by
  rw [tryDelim1, if_neg h]

theorem quotedValue_tripleD (v t : List Char) (hv : '"' ∉ v) :
    quotedValue ('"' :: '"' :: '"' :: (v ++ '"' :: '"' :: '"' :: t))
      = some (v, v.length + 6) := by
  have hpre : (['"', '"', '"'].isPrefixOf
      ('"' :: '"' :: '"' :: (v ++ '"' :: '"' :: '"' :: t))) = true := by
    simp [List.isPrefixOf]
  have hfind : findSub ['"', '"', '"'] (v ++ '"' :: '"' :: '"' :: t)
      = some v.length := by
    have h := findSub_boundary '"' ['"', '"'] v t (fun c hc h2 => hv (h2 ▸ hc))
    simpa using h
  rw [quotedValue, tryDelim3, if_pos hpre]
  simp only [List.drop_succ_cons, List.drop_zero, hfind, Option.map_some']
  rw [List.take_left]

theorem quotedValue_tripleS (v t : List Char) (hv : '\'' ∉ v) :
    quotedValue ('\'' :: '\'' :: '\'' :: (v ++ '\'' :: '\'' :: '\'' :: t))
      = some (v, v.length + 6) := by
  have hpre : (['\'', '\'', '\''].isPrefixOf
      ('\'' :: '\'' :: '\'' :: (v ++ '\'' :: '\'' :: '\'' :: t))) = true := by
    simp [List.isPrefixOf]
  have hfind : findSub ['\'', '\'', '\''] (v ++ '\'' :: '\'' :: '\'' :: t)
      = some v.length := by
    have h := findSub_boundary '\'' ['\'', '\''] v t (fun c hc h2 => hv (h2 ▸ hc))
    simpa using h
  rw [quotedValue, tryDelim3_wrong_head '"' '\'' _ (by decide), tryDelim3,
    if_pos hpre]
  simp only [List.drop_succ_cons, List.drop_zero, hfind, Option.map_some']
  rw [List.take_left]

/-- The argument regex on one rendered argument followed by benign text
(`t` empty or starting with the `,` of the separator): it matches the key,
captures exactly the escaped value, and consumes exactly the rendered
argument. -/
theorem matchArgAt_render (st : QuoteStyle) (k v t : List Char)
    (hk : k ≠ []) (hkw : k.all isWordChar = true)
    (hv : styleOk st v) (ht : t = [] ∨ t.head? = some ',') :
    matchArgAt (renderArg st k v ++ t)
      = some (k, escapeVal st v, (renderArg st k v).length) := by
  cases st with
  | double =>
    obtain ⟨hb, hq, -⟩ := hv
    have hesc : '"' ∉ escapeVal QuoteStyle.double v := by
      rw [escapeVal, escQuote_id '"' v hq]
      intro hmem
      rcases escNl_mem hmem with h | h | h
      · exact hq h
      · exact absurd h (by decide)
      · exact absurd h (by decide)
    have hshape : renderArg QuoteStyle.double k v ++ t
        = k ++ '=' :: ('"' :: (escapeVal QuoteStyle.double v ++ '"' :: t)) := by
      rw [renderArg]
      simp [styleDelim, List.append_assoc]
    rw [hshape, matchArgAt_eq_of k _ (escapeVal QuoteStyle.double v)
      ((escapeVal QuoteStyle.double v).length + 2) hk hkw
      (by
        intro c hc
        rw [List.head?_cons, Option.some.injEq] at hc
        rw [← hc]
        decide)
      (quotedValue_delim1 '"' '\'' (escapeVal QuoteStyle.double v) t
        (tryDelim3_short_head '"' _ t hesc ht (by decide))
        (tryDelim3_wrong_head '\'' '"' _ (by decide))
        (Or.inl (And.intro rfl rfl)) hesc)]
    simp only [Option.some.injEq, Prod.mk.injEq, true_and]
    simp only [renderArg, styleDelim, List.length_append, List.length_cons,
      List.length_nil]
    omega
  | single =>
    obtain ⟨hb, hq, -⟩ := hv
    have hesc : '\'' ∉ escapeVal QuoteStyle.single v := by
      rw [escapeVal, escQuote_id '\'' v hq]
      intro hmem
      rcases escNl_mem hmem with h | h | h
      · exact hq h
      · exact absurd h (by decide)
      · exact absurd h (by decide)
    have hshape : renderArg QuoteStyle.single k v ++ t
        = k ++ '=' :: ('\'' :: (escapeVal QuoteStyle.single v ++ '\'' :: t)) := by
      rw [renderArg]
      simp [styleDelim, List.append_assoc]
    rw [hshape, matchArgAt_eq_of k _ (escapeVal QuoteStyle.single v)
      ((escapeVal QuoteStyle.single v).length + 2) hk hkw
      (by
        intro c hc
        rw [List.head?_cons, Option.some.injEq] at hc
        rw [← hc]
        decide)
      (quotedValue_delim1 '\'' '"' (escapeVal QuoteStyle.single v) t
        (tryDelim3_wrong_head '"' '\'' _ (by decide))
        (tryDelim3_short_head '\'' _ t hesc ht (by decide))
        (Or.inr (And.intro rfl rfl)) hesc)]
    simp only [Option.some.injEq, Prod.mk.injEq, true_and]
    simp only [renderArg, styleDelim, List.length_append, List.length_cons,
      List.length_nil]
    omega
  | tripleD =>
    obtain ⟨hb, hq, -⟩ := hv
    have hshape : renderArg QuoteStyle.tripleD k v ++ t
        = k ++ '=' :: ('"' :: '"' :: '"' :: (v ++ '"' :: '"' :: '"' :: t)) := by
      rw [renderArg]
      simp [styleDelim, escapeVal, List.append_assoc]
    rw [hshape, matchArgAt_eq_of k _ v (v.length + 6) hk hkw
      (by
        intro c hc
        rw [List.head?_cons, Option.some.injEq] at hc
        rw [← hc]
        decide)
      (quotedValue_tripleD v t hq)]
    simp only [escapeVal, Option.some.injEq, Prod.mk.injEq, true_and]
    simp only [renderArg, styleDelim, escapeVal, List.length_append,
      List.length_cons, List.length_nil]
    omega
  | tripleS =>
    obtain ⟨hb, hq, -⟩ := hv
    have hshape : renderArg QuoteStyle.tripleS k v ++ t
        = k ++ '=' :: ('\'' :: '\'' :: '\'' :: (v ++ '\'' :: '\'' :: '\'' :: t)) := by
      rw [renderArg]
      simp [styleDelim, escapeVal, List.append_assoc]
    rw [hshape, matchArgAt_eq_of k _ v (v.length + 6) hk hkw
      (by
        intro c hc
        rw [List.head?_cons, Option.some.injEq] at hc
        rw [← hc]
        decide)
      (quotedValue_tripleS v t hq)]
    simp only [escapeVal, Option.some.injEq, Prod.mk.injEq, true_and]
    simp only [renderArg, styleDelim, escapeVal, List.length_append,
      List.length_cons, List.length_nil]
    omega

/-- The triples the `finditer` scan finds for each argument after the first:
the gap is the `", "` separator. -/
def sepTriples : List (QuoteStyle × List Char × List Char) →
    List (List Char × List Char × List Char)
  | [] => []
  | (st, k, v) :: rest => ([',', ' '], k, escapeVal st v) :: sepTriples rest

/-- The triples the `finditer` scan finds on a rendered argument list: no
gap before the first argument, the `", "` separator before each later one. -/
def expectedTriples : List (QuoteStyle × List Char × List Char) →
    List (List Char × List Char × List Char)
  | [] => []
  | (st, k, v) :: rest => ([], k, escapeVal st v) :: sepTriples rest

/-- The per-argument hypotheses of the round-trip. -/
def renderArgsHyp (args : List (QuoteStyle × List Char × List Char)) : Prop :=
  ∀ a ∈ args, a.2.1 ≠ [] ∧ a.2.1.all isWordChar = true ∧ styleOk a.1 a.2.2

theorem scanArgsF_nil (fuel : Nat) (skip : List Char) :
    scanArgsF fuel [] skip = [] := by
  cases fuel <;> rfl

theorem renderArg_length_ge (st : QuoteStyle) (k v : List Char) (hk : k ≠ []) :
    3 ≤ (renderArg st k v).length := by
  have hk1 : 1 ≤ k.length := by
    cases k with
    | nil => exact absurd rfl hk
    | cons a l => simp
  cases st <;>
    · simp only [renderArg, styleDelim, List.length_append, List.length_cons,
        List.length_nil]
      omega

/-- One iteration of the scan consumes one whole rendered argument. -/
theorem scanArgsF_arg (st : QuoteStyle) (k v u : List Char) (fuel : Nat)
    (skip : List Char) (hk : k ≠ []) (hkw : k.all isWordChar = true)
    (hv : styleOk st v) (hu : u = [] ∨ u.head? = some ',') (hf : 1 ≤ fuel) :
    scanArgsF fuel (renderArg st k v ++ u) skip
      = (skip.reverse, k, escapeVal st v) :: scanArgsF (fuel - 1) u [] := by
  obtain ⟨f, rfl⟩ : ∃ f, fuel = f + 1 := ⟨fuel - 1, by omega⟩
  rcases hkk : k with _ | ⟨kc, k'⟩
  · exact absurd hkk hk
  subst hkk
  have hmatch := matchArgAt_render st (kc :: k') v u hk hkw hv hu
  have hshape : renderArg st (kc :: k') v ++ u
      = kc :: ((k' ++ '=' :: (styleDelim st ++ escapeVal st v ++ styleDelim st)) ++ u) := by
    rw [renderArg]
    simp
  rw [hshape] at hmatch ⊢
  rw [scanArgsF]
  simp only [hmatch]
  have hlen : (renderArg st (kc :: k') v).length - 1
      = (k' ++ '=' :: (styleDelim st ++ escapeVal st v ++ styleDelim st)).length := by
    simp only [renderArg, List.length_append, List.length_cons]
    omega
  rw [hlen, List.drop_left]
  simp

theorem scanArgsF_sep (args : List (QuoteStyle × List Char × List Char)) :
    ∀ fuel, renderArgsHyp args → args ≠ [] →
      (renderArgs args).length + 2 ≤ fuel →
      scanArgsF fuel (',' :: ' ' :: renderArgs args) [] = sepTriples args := by
  induction args with
  | nil => intro fuel _ hne _; exact absurd rfl hne
  | cons a rest ih =>
    intro fuel hhyp _ hfuel
    obtain ⟨st, k, v⟩ := a
    have ha := hhyp (st, k, v) (List.mem_cons_self _ _)
    obtain ⟨f1, rfl⟩ : ∃ f, fuel = f + 1 := ⟨fuel - 1, by omega⟩
    rw [scanArgsF]
    simp only [matchArgAt_not_word ',' _ (by decide)]
    obtain ⟨f2, rfl⟩ : ∃ f, f1 = f + 1 := ⟨f1 - 1, by omega⟩
    rw [scanArgsF]
    simp only [matchArgAt_not_word ' ' _ (by decide)]
    rcases hrest : rest with _ | ⟨b, rest'⟩
    · subst hrest
      have hra : renderArgs [(st, k, v)] = renderArg st k v := rfl
      rw [hra] at hfuel ⊢
      have harg := scanArgsF_arg st k v [] f2 [' ', ','] ha.1 ha.2.1 ha.2.2
        (Or.inl rfl) (by
          have := renderArg_length_ge st k v ha.1
          omega)
      rw [List.append_nil] at harg
      rw [harg, scanArgsF_nil]
      rfl
    · subst hrest
      have hra : renderArgs ((st, k, v) :: b :: rest')
          = renderArg st k v ++ ',' :: ' ' :: renderArgs (b :: rest') := rfl
      rw [hra] at hfuel ⊢
      have hfr : (renderArgs (b :: rest')).length + 2 ≤ f2 - 1 := by
        have := renderArg_length_ge st k v ha.1
        simp only [List.length_append, List.length_cons] at hfuel
        omega
      have harg := scanArgsF_arg st k v (',' :: ' ' :: renderArgs (b :: rest'))
        f2 [' ', ','] ha.1 ha.2.1 ha.2.2 (Or.inr rfl) (by omega)
      rw [harg, ih (f2 - 1) (fun x hx => hhyp x (List.mem_cons_of_mem _ hx))
        (List.cons_ne_nil b rest') hfr]
      rfl

/-- The `finditer` scan on a full rendered argument list. -/
theorem scanArgsF_render (args : List (QuoteStyle × List Char × List Char)) :
    ∀ fuel, renderArgsHyp args → (renderArgs args).length ≤ fuel →
      scanArgsF fuel (renderArgs args) [] = expectedTriples args := by
  intro fuel hhyp hfuel
  rcases args with _ | ⟨⟨st, k, v⟩, rest⟩
  · rw [show renderArgs [] = [] from rfl, scanArgsF_nil]
    rfl
  have ha := hhyp (st, k, v) (List.mem_cons_self _ _)
  rcases hrest : rest with _ | ⟨b, rest'⟩
  · subst hrest
    have hra : renderArgs [(st, k, v)] = renderArg st k v := rfl
    rw [hra] at hfuel ⊢
    have harg := scanArgsF_arg st k v [] fuel [] ha.1 ha.2.1 ha.2.2
      (Or.inl rfl) (by
        have := renderArg_length_ge st k v ha.1
        omega)
    rw [List.append_nil] at harg
    rw [harg, scanArgsF_nil]
    rfl
  · subst hrest
    have hra : renderArgs ((st, k, v) :: b :: rest')
        = renderArg st k v ++ ',' :: ' ' :: renderArgs (b :: rest') := rfl
    rw [hra] at hfuel ⊢
    have hfr : (renderArgs (b :: rest')).length + 2 ≤ fuel - 1 := by
      have := renderArg_length_ge st k v ha.1
      simp only [List.length_append, List.length_cons] at hfuel
      omega
    have harg := scanArgsF_arg st k v (',' :: ' ' :: renderArgs (b :: rest'))
      fuel [] ha.1 ha.2.1 ha.2.2 (Or.inr rfl) (by omega)
    rw [harg, scanArgsF_sep (b :: rest') (fuel - 1)
      (fun x hx => hhyp x (List.mem_cons_of_mem _ hx)) (List.cons_ne_nil b rest') hfr]
    rfl

/-! The dict-building loop on the scanned triples, and the balance and
strip facts needed to assemble the round-trip. -/

theorem updateOrAppend_fresh (acc : List (List Char × List Char))
    (k v : List Char) (h : k ∉ acc.map Prod.fst) :
    updateOrAppend acc k v = acc ++ [(k, v)] := by
  induction acc with
  | nil => rfl
  | cons p rest ih =>
    obtain ⟨k0, v0⟩ := p
    simp only [List.map_cons, List.mem_cons, not_or] at h
    rw [updateOrAppend, if_neg (fun he => h.1 he.symm)]
    rw [ih h.2]
    rfl

theorem buildArgs_sepTriples (args : List (QuoteStyle × List Char × List Char)) :
    ∀ acc, renderArgsHyp args →
      (args.map (fun a => a.2.1)).Nodup →
      (∀ a ∈ args, a.2.1 ∉ acc.map Prod.fst) →
      buildArgs (sepTriples args) acc
        = .ok (acc ++ args.map (fun a => (a.2.1, a.2.2))) := by
  induction args with
  | nil =>
    intro acc _ _ _
    simp [sepTriples, buildArgs]
  | cons a rest ih =>
    intro acc hhyp hnd hfresh
    obtain ⟨st, k, v⟩ := a
    have ha := hhyp (st, k, v) (List.mem_cons_self _ _)
    rw [sepTriples, buildArgs]
    have hstrip : pstrip [',', ' '] = [','] := rfl
    rw [hstrip]
    rw [if_neg (by simp)]
    rw [unescape_escape st v ha.2.2]
    rw [updateOrAppend_fresh acc k v (hfresh (st, k, v) (List.mem_cons_self _ _))]
    simp only [List.map_cons, List.nodup_cons] at hnd
    rw [ih (acc ++ [(k, v)]) (fun x hx => hhyp x (List.mem_cons_of_mem _ hx)) hnd.2
      (by
        intro x hx
        simp only [List.map_append, List.map_cons, List.map_nil, List.mem_append,
          List.mem_singleton, not_or]
        exact ⟨hfresh x (List.mem_cons_of_mem _ hx),
          fun he => hnd.1 (he ▸ List.mem_map_of_mem (fun a => a.2.1) hx)⟩)]
    simp

theorem buildArgs_expected (args : List (QuoteStyle × List Char × List Char))
    (hhyp : renderArgsHyp args)
    (hnd : (args.map (fun a => a.2.1)).Nodup) :
    buildArgs (expectedTriples args) []
      = .ok (args.map (fun a => (a.2.1, a.2.2))) := by
  rcases args with _ | ⟨⟨st, k, v⟩, rest⟩
  · rfl
  have ha := hhyp (st, k, v) (List.mem_cons_self _ _)
  rw [expectedTriples, buildArgs]
  rw [show pstrip [] = [] from rfl]
  rw [if_neg (by simp)]
  rw [unescape_escape st v ha.2.2]
  rw [show updateOrAppend [] k v = [(k, v)] from rfl]
  simp only [List.map_cons, List.nodup_cons] at hnd
  rw [buildArgs_sepTriples rest [(k, v)]
    (fun x hx => hhyp x (List.mem_cons_of_mem _ hx)) hnd.2
    (by
      intro x hx
      simp only [List.map_cons, List.map_nil, List.mem_singleton]
      exact fun he => hnd.1 (he ▸ List.mem_map_of_mem (fun a => a.2.1) hx))]
  simp

theorem balAux_renderArg (st : QuoteStyle) (k v : List Char) (d : Nat)
    (hkw : k.all isWordChar = true) (hv : styleOk st v) :
    balAux (renderArg st k v) d = some d := by
  have hk : ∀ c ∈ k, c ≠ '(' ∧ c ≠ ')' :=
    fun c hc => wordChar_ne_paren (List.all_eq_true.mp hkw c hc)
  have hvd : ∀ e, balAux (escapeVal st v) e = some e := by
    intro e
    have hb0 : balAux v 0 = some 0 := by
      cases st <;> exact hv.2.2
    have hsh := balAux_shift v 0 0 e hb0
    simp only [Nat.zero_add] at hsh
    cases st with
    | double => rw [escapeVal, escQuote_id '"' v hv.2.1, balAux_escNl]; exact hsh
    | single => rw [escapeVal, escQuote_id '\'' v hv.2.1, balAux_escNl]; exact hsh
    | tripleD => exact hsh
    | tripleS => exact hsh
  have hdelim : ∀ e, balAux (styleDelim st) e = some e := by
    intro e
    cases st <;> rfl
  rw [renderArg, show ('=' :: (styleDelim st ++ escapeVal st v ++ styleDelim st))
      = ['='] ++ (styleDelim st ++ escapeVal st v ++ styleDelim st) from rfl]
  rw [balAux_append, balAux_nonparen k hk d]
  simp only [Option.some_bind]
  rw [balAux_append, show balAux ['='] d = some d from by
    rw [balAux, if_neg (by decide), if_neg (by decide)]; rfl]
  simp only [Option.some_bind]
  rw [balAux_append, balAux_append, hdelim d]
  simp only [Option.some_bind]
  rw [hvd d]
  simp only [Option.some_bind]
  exact hdelim d

theorem balAux_renderArgs (args : List (QuoteStyle × List Char × List Char))
    (hhyp : renderArgsHyp args) : balAux (renderArgs args) 0 = some 0 := by
  induction args with
  | nil => rfl
  | cons a rest ih =>
    obtain ⟨st, k, v⟩ := a
    have ha := hhyp (st, k, v) (List.mem_cons_self _ _)
    rcases rest with _ | ⟨b, rest'⟩
    · exact balAux_renderArg st k v 0 ha.2.1 ha.2.2
    · have hra : renderArgs ((st, k, v) :: b :: rest')
          = renderArg st k v ++ ',' :: ' ' :: renderArgs (b :: rest') := rfl
      rw [hra, balAux_append, balAux_renderArg st k v 0 ha.2.1 ha.2.2]
      simp only [Option.some_bind]
      rw [balAux, if_neg (by decide), if_neg (by decide)]
      rw [balAux, if_neg (by decide), if_neg (by decide)]
      exact ih (fun x hx => hhyp x (List.mem_cons_of_mem _ hx))

theorem renderArg_head (st : QuoteStyle) (kc : Char) (k' v : List Char) :
    (renderArg st (kc :: k') v).head? = some kc := by
  rw [renderArg]
  rfl

theorem renderArg_getLast (st : QuoteStyle) (k v : List Char) :
    ∃ q, (renderArg st k v).getLast? = some q ∧ isSpaceChar q = false := by
  have hsh : renderArg st k v
      = (k ++ '=' :: (styleDelim st ++ escapeVal st v)) ++ styleDelim st := by
    rw [renderArg]
    simp
  cases st with
  | double =>
    refine ⟨'"', ?_, by decide⟩
    rw [hsh, List.getLast?_append_of_ne_nil _ (by simp [styleDelim])]
    rfl
  | single =>
    refine ⟨'\'', ?_, by decide⟩
    rw [hsh, List.getLast?_append_of_ne_nil _ (by simp [styleDelim])]
    rfl
  | tripleD =>
    refine ⟨'"', ?_, by decide⟩
    rw [hsh, List.getLast?_append_of_ne_nil _ (by simp [styleDelim])]
    rfl
  | tripleS =>
    refine ⟨'\'', ?_, by decide⟩
    rw [hsh, List.getLast?_append_of_ne_nil _ (by simp [styleDelim])]
    rfl

theorem renderArgs_head_not_space (args : List (QuoteStyle × List Char × List Char))
    (hhyp : renderArgsHyp args) :
    ∀ c, (renderArgs args).head? = some c → isSpaceChar c = false := by
  intro c hc
  rcases args with _ | ⟨⟨st, k, v⟩, rest⟩
  · simp [renderArgs] at hc
  have ha := hhyp (st, k, v) (List.mem_cons_self _ _)
  rcases hkk : k with _ | ⟨kc, k'⟩
  · exact absurd hkk ha.1
  subst hkk
  have hw : isWordChar kc = true := by
    have := ha.2.1
    rw [List.all_cons, Bool.and_eq_true] at this
    exact this.1
  have hhead : (renderArgs ((st, kc :: k', v) :: rest)).head? = some kc := by
    rcases rest with _ | ⟨b, rest'⟩
    · exact renderArg_head st kc k' v
    · have hra : renderArgs ((st, kc :: k', v) :: b :: rest')
          = renderArg st (kc :: k') v ++ ',' :: ' ' :: renderArgs (b :: rest') := rfl
      rw [hra, List.head?_append_of_ne_nil]
      · exact renderArg_head st kc k' v
      · rw [renderArg]
        simp
  rw [hhead, Option.some.injEq] at hc
  rw [← hc]
  exact wordChar_not_space hw

theorem renderArgs_ne_nil (args : List (QuoteStyle × List Char × List Char))
    (hhyp : renderArgsHyp args) (hne : args ≠ []) : renderArgs args ≠ [] := by
  rcases args with _ | ⟨⟨st, k, v⟩, rest⟩
  · exact absurd rfl hne
  have ha := hhyp (st, k, v) (List.mem_cons_self _ _)
  have h3 := renderArg_length_ge st k v ha.1
  rcases rest with _ | ⟨b, rest'⟩
  · rw [show renderArgs [(st, k, v)] = renderArg st k v from rfl]
    intro h
    rw [h] at h3
    simp at h3
  · have hra : renderArgs ((st, k, v) :: b :: rest')
        = renderArg st k v ++ ',' :: ' ' :: renderArgs (b :: rest') := rfl
    rw [hra]
    simp

theorem renderArgs_getLast_not_space (args : List (QuoteStyle × List Char × List Char))
    (hhyp : renderArgsHyp args) :
    ∀ c, (renderArgs args).getLast? = some c → isSpaceChar c = false := by
  induction args with
  | nil => intro c hc; simp [renderArgs] at hc
  | cons a rest ih =>
    obtain ⟨st, k, v⟩ := a
    intro c hc
    rcases rest with _ | ⟨b, rest'⟩
    · obtain ⟨q, hq, hqs⟩ := renderArg_getLast st k v
      rw [show renderArgs [(st, k, v)] = renderArg st k v from rfl, hq,
        Option.some.injEq] at hc
      rw [← hc]
      exact hqs
    · have hra : renderArgs ((st, k, v) :: b :: rest')
          = renderArg st k v ++ ',' :: ' ' :: renderArgs (b :: rest') := rfl
      rw [hra, List.getLast?_append_of_ne_nil _ (by simp)] at hc
      have hRne : renderArgs (b :: rest') ≠ [] :=
        renderArgs_ne_nil (b :: rest')
          (fun x hx => hhyp x (List.mem_cons_of_mem _ hx))
          (List.cons_ne_nil b rest')
      rw [show (',' :: ' ' :: renderArgs (b :: rest'))
          = [',', ' '] ++ renderArgs (b :: rest') from rfl,
        List.getLast?_append_of_ne_nil _ hRne] at hc
      exact ih (fun x hx => hhyp x (List.mem_cons_of_mem _ hx)) c hc

/-- `pstrip` is the identity on a rendered argument list. -/
theorem pstrip_renderArgs (args : List (QuoteStyle × List Char × List Char))
    (hhyp : renderArgsHyp args) : pstrip (renderArgs args) = renderArgs args :=
  pstrip_no_edge (renderArgs args) (renderArgs_head_not_space args hhyp)
    (renderArgs_getLast_not_space args hhyp)

/-- **C4 counterexample** — a generated call string with one pair whose
value contains a backslash-escaped quote (explicitly a supported escape per
the claim) does *not* parse back to the original pair: the non-greedy
capture group stops at the escaped quote, so `f(key="a\"b")` parses to the
single pair `key ↦ "a\"` (the characters `a` and backslash) instead of
`key ↦ "a\"b"`. -/
theorem parse_roundtrip_cex :
    renderCall "f".toList [(QuoteStyle.double, "key".toList, ['a', '"', 'b'])]
      = "f(key=\"a\\\"b\")".toList
    ∧ parse_tool_call (renderCall "f".toList
        [(QuoteStyle.double, "key".toList, ['a', '"', 'b'])])
      = .ok ⟨"f".toList, [("key".toList, ['a', '\\'])]⟩
    ∧ (['a', '\\'] : List Char) ≠ ['a', '"', 'b'] := by
  exact ⟨by decide, by rfl, by decide⟩

/-- **C4 (amended)** — the round-trip holds for every well-formed call
string built from a word-character name and N pairs with distinct
word-character keys, in any supported quoting style, provided each value
contains no backslash and not the quoting style's own quote character
(values may contain balanced parentheses, the *other* quote character, and
newlines — raw in triple quotes, `\n`-escaped in single/double quotes):
the parser returns a Call with exactly that name and exactly the original
N pairs, every value unescaped back to the original text.  Values that use
the claimed backslash-escapes of the style's own quote character break the
round-trip (see the counterexample). -/
theorem parse_render_roundtrip (name : List Char)
    (args : List (QuoteStyle × List Char × List Char))
    (hname : name ≠ []) (hnw : name.all isWordChar = true)
    (hargs : renderArgsHyp args)
    (hnd : (args.map (fun a => a.2.1)).Nodup) :
    parse_tool_call (renderCall name args)
      = .ok ⟨name, args.map (fun a => (a.2.1, a.2.2))⟩ := by
  have hshape : renderCall name args
      = name ++ '(' :: (renderArgs args ++ [')']) := rfl
  rw [hshape, parse_call_shape name (renderArgs args) hname hnw
    (balAux_renderArgs args hargs)]
  rw [pstrip_renderArgs args hargs]
  rw [show scanArgs (renderArgs args) []
      = scanArgsF (renderArgs args).length (renderArgs args) [] from rfl]
  rw [scanArgsF_render args (renderArgs args).length hargs (le_refl _)]
  rw [buildArgs_expected args hargs hnd]
  rfl

/-- Witness for C4 (amended): a three-pair call exercising balanced
parentheses in a double-quoted value, a raw multi-line triple-quoted value,
and the other quote character inside a single-quoted value. -/
theorem parse_render_roundtrip_witness :
    parse_tool_call (renderCall "run_command".toList
      [(QuoteStyle.double, "command".toList, "echo (hi)".toList),
       (QuoteStyle.tripleD, "note".toList, "line1\nline2".toList),
       (QuoteStyle.single, "msg".toList, "say \"hi\"".toList)])
      = .ok ⟨"run_command".toList,
          [("command".toList, "echo (hi)".toList),
           ("note".toList, "line1\nline2".toList),
           ("msg".toList, "say \"hi\"".toList)]⟩ :=
  parse_render_roundtrip "run_command".toList
    [(QuoteStyle.double, "command".toList, "echo (hi)".toList),
     (QuoteStyle.tripleD, "note".toList, "line1\nline2".toList),
     (QuoteStyle.single, "msg".toList, "say \"hi\"".toList)]
    (by decide) (by decide) (by unfold renderArgsHyp; decide) (by decide)

/-! ### C7 / C8 — plan extraction machinery

Facts about the fixed vocabulary, the leftmost `re.search` (including that a
recognized head cannot start strictly inside preceding head-free text), the
nesting scan over balanced call bodies, and the extraction loop itself. -/

theorem vocab_word : ∀ v ∈ toolVocab, v.all isWordChar = true := by decide

theorem vocab_suffix_closed :
    ∀ a ∈ toolVocab, ∀ b ∈ toolVocab, a.isSuffixOf b = true → a = b := by decide

theorem vocab_ne_nil : ∀ v ∈ toolVocab, v ≠ [] := by decide

theorem mem_of_getLast_opt {l : List Char} {a : Char}
    (h : l.getLast? = some a) : a ∈ l := by
  have hm : a ∈ l.getLast? := by rw [h]; rfl
  obtain ⟨hne, ha⟩ := List.mem_getLast?_eq_getLast hm
  rw [ha]
  exact List.getLast_mem hne

theorem find?_eq_some_of_unique {α : Type} (l : List α) (p : α → Bool) (a : α)
    (ha : a ∈ l) (hpa : p a = true) (huniq : ∀ x ∈ l, p x = true → x = a) :
    l.find? p = some a := by
  induction l with
  | nil => cases ha
  | cons b rest ih =>
    by_cases hb : p b = true
    · rw [List.find?_cons_of_pos _ hb]
      exact congrArg some (huniq b (List.mem_cons_self _ _) hb)
    · rw [List.find?_cons_of_neg _ hb]
      rcases List.mem_cons.mp ha with rfl | ha'
      · exact absurd hpa hb
      · exact ih ha' (fun x hx => huniq x (List.mem_cons_of_mem _ hx))

/-- A recognized head pattern `v ++ "("` can be a prefix of head-free text
`p` followed by a rendered call head `name ++ "(" ++ …` only when `p` is
empty and `v` is that very name: the vocabulary is made of word characters
and is suffix-closed, and `p` contains no head of its own. -/
theorem vocab_prefix_at (v name p X : List Char)
    (hv : v ∈ toolVocab) (hn : name ∈ toolVocab)
    (hp : reSearchHead p = none)
    (hpre : (v ++ ['(']).isPrefixOf (p ++ (name ++ '(' :: X)) = true) :
    p = [] ∧ v = name := by
  rw [ List.isPrefixOf_iff_prefix] at hpre
  have hvw : v.all isWordChar = true := vocab_word v hv
  have hnw : name.all isWordChar = true := vocab_word name hn
  have hlens : (v ++ ['(']).length = v.length + 1 := by simp
  rcases Nat.lt_or_ge v.length p.length with hA | hge
  · -- the whole pattern lies inside p: p would contain a head after all
    exfalso
    have h2 : p <+: (p ++ (name ++ '(' :: X)) := List.prefix_append _ _
    have hvp : (v ++ ['(']) <+: p := by
      rcases List.prefix_or_prefix_of_prefix hpre h2 with h | h
      · exact h
      · have he := List.IsPrefix.eq_of_length_le h (by simp; omega)
        rw [he]
    cases p with
    | nil => simp at hA
    | cons c rest =>
      rw [reSearchHead] at hp
      rcases hfs : toolVocab.find? (fun w => (w ++ ['(']).isPrefixOf (c :: rest))
        with _ | w
      · have hsome :
            (toolVocab.find? (fun w => (w ++ ['(']).isPrefixOf (c :: rest))).isSome := by
          rw [List.find?_isSome]
          exact ⟨v, hv, by rw [ List.isPrefixOf_iff_prefix]; exact hvp⟩
        rw [hfs] at hsome
        simp at hsome
      · rw [hfs] at hp
        simp at hp
  rcases Nat.lt_trichotomy v.length (p.length + name.length) with hC | hB | hD
  · -- the pattern's '(' falls inside `name`: a word character, contradiction
    exfalso
    have htake := List.prefix_iff_eq_take.mp hpre
    rw [hlens] at htake
    have hj : v.length + 1 - p.length ≤ name.length := by omega
    have e0 : v.length + 1 = p.length + (v.length + 1 - p.length) := by omega
    have e1 : (p ++ (name ++ '(' :: X)).take (p.length + (v.length + 1 - p.length))
        = p ++ (name ++ '(' :: X).take (v.length + 1 - p.length) :=
      List.take_append _
    have e2 : (name ++ '(' :: X).take (v.length + 1 - p.length)
        = name.take (v.length + 1 - p.length) :=
      List.take_append_of_le_length hj
    rw [e0, e1, e2] at htake
    have hne : name.take (v.length + 1 - p.length) ≠ [] := by
      intro h0
      have hl := congrArg List.length htake
      rw [h0] at hl
      simp at hl
      omega
    have hlast : (name.take (v.length + 1 - p.length)).getLast? = some '(' := by
      have h1 : (p ++ name.take (v.length + 1 - p.length)).getLast? = some '(' := by
        rw [← htake]
        exact List.getLast?_concat v
      rw [List.getLast?_append_of_ne_nil _ hne] at h1
      exact h1
    have hmem : '(' ∈ name := List.take_subset _ _ (mem_of_getLast_opt hlast)
    exact absurd (List.all_eq_true.mp hnw '(' hmem) (by decide)
  · -- the pattern is exactly p ++ name: suffix-closure forces p = []
    have hv1 : v <+: (p ++ (name ++ '(' :: X)) :=
      (List.prefix_append v ['(']).trans hpre
    have htakev := List.prefix_iff_eq_take.mp hv1
    have hvpn : v = p ++ name := by
      rw [htakev, hB, List.take_append name.length,
        List.take_append_of_le_length (le_refl _), List.take_length]
    have hsuf : name.isSuffixOf v = true := by
      rw [List.isSuffixOf_iff_suffix, hvpn]
      exact List.suffix_append p name
    have heq := vocab_suffix_closed name hn v hv hsuf
    have hlv := congrArg List.length hvpn
    rw [List.length_append] at hlv
    have hln : name.length = v.length := by rw [heq]
    have hpnil : p = [] := List.length_eq_zero.mp (by omega)
    exact ⟨hpnil, heq.symm⟩
  · -- the pattern extends beyond the call's '(': that '(' sits inside v
    exfalso
    have hv1 : v <+: (p ++ (name ++ '(' :: X)) :=
      (List.prefix_append v ['(']).trans hpre
    have htakev := List.prefix_iff_eq_take.mp hv1
    have e1 : ((p ++ (name ++ '(' :: X)).take v.length).take
          (p.length + name.length + 1)
        = (p ++ (name ++ '(' :: X)).take (p.length + name.length + 1) := by
      rw [List.take_take]
      congr 1
      omega
    have e3 : (name ++ '(' :: X).take (name.length + 1) = name ++ ['('] := by
      rw [List.take_append 1]
      simp
    have hveq : v.take (p.length + name.length + 1) = (p ++ name) ++ ['('] := by
      conv_lhs => rw [htakev]
      rw [e1, Nat.add_assoc, List.take_append, e3, ← List.append_assoc]
    have hlast : (v.take (p.length + name.length + 1)).getLast? = some '(' := by
      rw [hveq]
      exact List.getLast?_concat _
    have hmem : '(' ∈ v := List.take_subset _ _ (mem_of_getLast_opt hlast)
    exact absurd (List.all_eq_true.mp hvw '(' hmem) (by decide)

/-- The leftmost search on head-free text `p` followed by a rendered call
head finds exactly the junction occurrence. -/
theorem reSearchHead_append (p name X : List Char)
    (hp : reSearchHead p = none) (hn : name ∈ toolVocab) :
    reSearchHead (p ++ (name ++ '(' :: X))
      = some (p.length, p.length + name.length + 1) := by
  induction p with
  | nil =>
    cases hnm : name with
    | nil => exact absurd hnm (vocab_ne_nil name hn)
    | cons c n' =>
      subst hnm
      simp only [List.nil_append, List.cons_append]
      rw [reSearchHead]
      have hfind : toolVocab.find?
          (fun v => (v ++ ['(']).isPrefixOf (c :: (n' ++ '(' :: X)))
          = some (c :: n') := by
        apply find?_eq_some_of_unique _ _ _ hn
        · rw [ List.isPrefixOf_iff_prefix]
          refine ⟨X, ?_⟩
          simp
        · intro x hx hpx
          have hpx' : (x ++ ['(']).isPrefixOf ([] ++ ((c :: n') ++ '(' :: X))
              = true := by simpa using hpx
          exact (vocab_prefix_at x (c :: n') [] X hx hn rfl hpx').2
      rw [hfind]
      simp
  | cons c p' ih =>
    have hp' : reSearchHead p' = none := by
      rw [reSearchHead] at hp
      rcases hfs : toolVocab.find? (fun v => (v ++ ['(']).isPrefixOf (c :: p'))
        with _ | w
      · rw [hfs] at hp
        exact Option.map_eq_none'.mp hp
      · rw [hfs] at hp
        simp at hp
    rw [List.cons_append, reSearchHead]
    rcases hfs : toolVocab.find?
        (fun v => (v ++ ['(']).isPrefixOf (c :: (p' ++ (name ++ '(' :: X))))
        with _ | w
    · simp only [hfs]
      rw [ih hp']
      simp only [Option.map_some', Option.some.injEq, Prod.mk.injEq,
        List.length_cons]
      exact ⟨trivial, by omega⟩
    · exfalso
      have hw := List.find?_some hfs
      have hwmem := List.mem_of_find?_eq_some hfs
      have hpx' : (w ++ ['(']).isPrefixOf ((c :: p') ++ (name ++ '(' :: X))
          = true := by simpa using hw
      have := (vocab_prefix_at w name (c :: p') X hwmem hn hp hpx').1
      simp at this

theorem scanCloseRel_zero (Y : List Char) : scanCloseRel Y 0 = some 0 := by
  cases Y <;> simp [scanCloseRel]

theorem scanCloseRel_step_open (u : List Char) (L : Int) (hL : 0 < L) :
    scanCloseRel ('(' :: u) L = (scanCloseRel u (L + 1)).map (· + 1) := by
  simp [scanCloseRel, hL]

theorem scanCloseRel_step_close (u : List Char) (L : Int) (hL : 0 < L) :
    scanCloseRel (')' :: u) L = (scanCloseRel u (L - 1)).map (· + 1) := by
  simp [scanCloseRel, hL]

theorem scanCloseRel_step_other (c : Char) (u : List Char) (L : Int)
    (hL : 0 < L) (hc1 : c ≠ '(') (hc2 : c ≠ ')') :
    scanCloseRel (c :: u) L = (scanCloseRel u L).map (· + 1) := by
  simp [scanCloseRel, hL, hc1, hc2]

/-- Characters that are neither `(` nor `)` only advance the close-scan. -/
theorem scanCloseRel_nonparen (x : List Char) :
    ∀ (t : List Char) (L : Int), 0 < L → (∀ c ∈ x, c ≠ '(' ∧ c ≠ ')') →
    scanCloseRel (x ++ t) L = (scanCloseRel t L).map (· + x.length) := by
  induction x with
  | nil =>
    intro t L _ _
    simp
  | cons c x' ih =>
    intro t L hL hx
    have hc := hx c (List.mem_cons_self _ _)
    rw [List.cons_append, scanCloseRel_step_other c _ L hL hc.1 hc.2,
      ih t L hL (fun d hd => hx d (List.mem_cons_of_mem _ hd))]
    rcases h : scanCloseRel t L with _ | k <;> simp [h] <;> omega

/-- Traversing a balanced segment leaves the close-scan at a shifted level
and offsets the found index by the segment length. -/
theorem scanCloseRel_balanced (body : List Char) :
    ∀ (n m : Nat) (t : List Char) (L : Int),
      balAux body n = some m → (n : Int) < L →
      scanCloseRel (body ++ t) L
        = (scanCloseRel t (L - n + m)).map (· + body.length) := by
  induction body with
  | nil =>
    intro n m t L hb hL
    rw [balAux] at hb
    have hnm : n = m := by injection hb
    have e : L - (n : Int) + m = L := by rw [← hnm]; omega
    rw [List.nil_append, e]
    simp
  | cons c body' ih =>
    intro n m t L hb hL
    have hL0 : (0 : Int) < L := by omega
    rw [balAux] at hb
    by_cases hc1 : c = '('
    · rw [if_pos hc1] at hb
      subst hc1
      rw [List.cons_append, scanCloseRel_step_open _ L hL0,
        ih (n + 1) m t (L + 1) hb (by omega)]
      have e : L + 1 - ((n + 1 : Nat) : Int) + m = L - n + m := by omega
      rw [e]
      rcases h : scanCloseRel t (L - n + m) with _ | k <;> simp [h] <;> omega
    · by_cases hc2 : c = ')'
      · rw [if_neg hc1, if_pos hc2] at hb
        subst hc2
        by_cases hn : n = 0
        · rw [if_pos hn] at hb
          cases hb
        · rw [if_neg hn] at hb
          rw [List.cons_append, scanCloseRel_step_close _ L hL0,
            ih (n - 1) m t (L - 1) hb (by omega)]
          have e : L - 1 - ((n - 1 : Nat) : Int) + m = L - n + m := by omega
          rw [e]
          rcases h : scanCloseRel t (L - n + m) with _ | k <;> simp [h] <;> omega
      · rw [if_neg hc1, if_neg hc2] at hb
        rw [List.cons_append, scanCloseRel_step_other c _ L hL0 hc1 hc2,
          ih n m t L hb hL]
        rcases h : scanCloseRel t (L - n + m) with _ | k <;> simp [h] <;> omega

theorem extractLoopF_none (fuel : Nat) (s : List Char)
    (h : reSearchHead s = none) : extractLoopF fuel s = [] := by
  cases fuel with
  | zero => rw [extractLoopF]
  | succ f =>
    rw [extractLoopF]
    simp only [h]

theorem extractLoopF_step_found (f : Nat) (s : List Char) (st en k : Nat)
    (h1 : reSearchHead s = some (st, en))
    (h2 : scanCloseRel (s.drop en) 1 = some k) :
    extractLoopF (f + 1) s
      = pslice s st (en + k) :: extractLoopF f (s.drop (en + k)) := by
  rw [extractLoopF]
  simp only [h1, h2]

theorem extractLoopF_step_skip (f : Nat) (s : List Char) (st en : Nat)
    (h1 : reSearchHead s = some (st, en))
    (h2 : scanCloseRel (s.drop en) 1 = none) :
    extractLoopF (f + 1) s = extractLoopF f (s.drop en) := by
  rw [extractLoopF]
  simp only [h1, h2]

theorem pslice_mid (a b c : List Char) :
    pslice (a ++ b ++ c) a.length (a.length + b.length) = b := by
  have e1 : (a ++ b ++ c).take (a.length + b.length) = a ++ b := by
    rw [List.append_assoc, List.take_append b.length,
      List.take_append_of_le_length (le_refl _), List.take_length]
  rw [pslice, e1, List.drop_left]

/-- A recognized call occurrence in a plan text: a vocabulary name and a
parenthesized body. -/
structure CallForm where
  name : List Char
  body : List Char

/-- The textual form `name(body)` of a call occurrence. -/
def CallForm.render (c : CallForm) : List Char :=
  c.name ++ '(' :: (c.body ++ [')'])

/-- A plan suffix: each call occurrence rendered, followed by the prose gap
that separates it from the next occurrence. -/
def renderSegs : List (CallForm × List Char) → List Char
  | [] => []
  | cq :: rest => CallForm.render cq.1 ++ (cq.2 ++ renderSegs rest)

/-- Well-formedness of a call/prose alternation: names are in the tool
vocabulary, bodies are paren-balanced, and prose gaps contain no recognized
call head of their own. -/
def segsOk (segs : List (CallForm × List Char)) : Prop :=
  ∀ cq ∈ segs, cq.1.name ∈ toolVocab ∧ balAux cq.1.body 0 = some 0 ∧
    reSearchHead cq.2 = none

/-- Prose gaps free of parenthesis characters. -/
def proseParenFree (segs : List (CallForm × List Char)) : Prop :=
  ∀ cq ∈ segs, ∀ c ∈ cq.2, c ≠ '(' ∧ c ≠ ')'

instance (segs : List (CallForm × List Char)) : Decidable (segsOk segs) :=
  inferInstanceAs (Decidable (∀ cq ∈ segs, _ ∧ _ ∧ _))

instance (segs : List (CallForm × List Char)) : Decidable (proseParenFree segs) :=
  inferInstanceAs (Decidable (∀ cq ∈ segs, ∀ c ∈ cq.2, _ ∧ _))

/-- Scanning for the closing parenthesis from a strictly positive level
across balanced calls and paren-free prose never closes. -/
theorem scanCloseRel_renderSegs (segs : List (CallForm × List Char)) :
    ∀ (L : Int), 0 < L → segsOk segs → proseParenFree segs →
    scanCloseRel (renderSegs segs) L = none := by
  induction segs with
  | nil =>
    intro L hL _ _
    rw [renderSegs, scanCloseRel, if_neg (by omega)]
  | cons cq rest ih =>
    intro L hL hok hpf
    obtain ⟨hn, hbal, _⟩ := hok cq (List.mem_cons_self _ _)
    have hq_np : ∀ d ∈ cq.2, d ≠ '(' ∧ d ≠ ')' :=
      hpf cq (List.mem_cons_self _ _)
    have hrest_ok : segsOk rest := fun x hx => hok x (List.mem_cons_of_mem _ hx)
    have hrest_pf : proseParenFree rest :=
      fun x hx => hpf x (List.mem_cons_of_mem _ hx)
    have hnw := vocab_word cq.1.name hn
    have hname_np : ∀ d ∈ cq.1.name, d ≠ '(' ∧ d ≠ ')' := fun d hd =>
      wordChar_ne_paren (List.all_eq_true.mp hnw d hd)
    have e : renderSegs (cq :: rest)
        = cq.1.name ++ '(' :: (cq.1.body ++ ')' :: (cq.2 ++ renderSegs rest)) := by
      rw [renderSegs, CallForm.render]
      simp
    rw [e, scanCloseRel_nonparen cq.1.name _ L hL hname_np,
      scanCloseRel_step_open _ _ hL,
      scanCloseRel_balanced cq.1.body 0 0 _ (L + 1) hbal (by omega)]
    simp only [Nat.cast_zero, sub_zero, add_zero]
    rw [scanCloseRel_step_close _ _ (by omega : (0 : Int) < L + 1)]
    simp only [add_sub_cancel_right]
    rw [scanCloseRel_nonparen cq.2 _ L hL hq_np, ih L hL hrest_ok hrest_pf]
    simp

/-- Master extraction lemma: on head-free prose followed by an alternation of
balanced recognized calls and head-free prose gaps, the extraction loop
returns exactly the rendered calls, in order. -/
theorem extractLoopF_renderSegs (segs : List (CallForm × List Char)) :
    ∀ (p : List Char) (fuel : Nat),
      reSearchHead p = none → segsOk segs →
      (p ++ renderSegs segs).length ≤ fuel →
      extractLoopF fuel (p ++ renderSegs segs)
        = segs.map (fun cq => CallForm.render cq.1) := by
  induction segs with
  | nil =>
    intro p fuel hp _ _
    rw [renderSegs, List.append_nil, List.map_nil]
    exact extractLoopF_none fuel p hp
  | cons cq rest ih =>
    intro p fuel hp hok hlen
    obtain ⟨hn, hbal, hq⟩ := hok cq (List.mem_cons_self _ _)
    have hrest_ok : segsOk rest := fun x hx => hok x (List.mem_cons_of_mem _ hx)
    have e : p ++ renderSegs (cq :: rest)
        = p ++ (cq.1.name ++ '(' :: (cq.1.body ++ ')' :: (cq.2 ++ renderSegs rest))) := by
      rw [renderSegs, CallForm.render]
      simp
    have e5 : p ++ (cq.1.name ++ '(' :: (cq.1.body ++ ')' :: (cq.2 ++ renderSegs rest)))
        = p ++ CallForm.render cq.1 ++ (cq.2 ++ renderSegs rest) := by
      rw [CallForm.render]
      simp
    have hr : (CallForm.render cq.1).length
        = cq.1.name.length + cq.1.body.length + 2 := by
      rw [CallForm.render]
      simp only [List.length_append, List.length_cons, List.length_nil]
      omega
    have hlen1 : 1 ≤ fuel := by
      have h0 : 0 < (p ++ renderSegs (cq :: rest)).length := by
        rw [e]
        simp only [List.length_append, List.length_cons, List.length_nil]
        omega
      omega
    obtain ⟨f, rfl⟩ : ∃ f, fuel = f + 1 := ⟨fuel - 1, by omega⟩
    rw [e]
    have hsearch := reSearchHead_append p cq.1.name
      (cq.1.body ++ ')' :: (cq.2 ++ renderSegs rest)) hp hn
    have hdrop : (p ++ (cq.1.name ++ '(' :: (cq.1.body ++ ')' :: (cq.2 ++ renderSegs rest)))).drop
          (p.length + cq.1.name.length + 1)
        = cq.1.body ++ ')' :: (cq.2 ++ renderSegs rest) := by
      have e2 : p ++ (cq.1.name ++ '(' :: (cq.1.body ++ ')' :: (cq.2 ++ renderSegs rest)))
          = (p ++ cq.1.name ++ ['(']) ++ (cq.1.body ++ ')' :: (cq.2 ++ renderSegs rest)) := by
        simp
      have e3 : p.length + cq.1.name.length + 1 = (p ++ cq.1.name ++ ['(']).length := by
        simp
        omega
      rw [e2, e3, List.drop_left]
    have hscan : scanCloseRel (cq.1.body ++ ')' :: (cq.2 ++ renderSegs rest)) 1
        = some (cq.1.body.length + 1) := by
      rw [scanCloseRel_balanced cq.1.body 0 0 _ 1 hbal (by omega)]
      simp only [Nat.cast_zero, sub_zero, add_zero]
      rw [scanCloseRel_step_close _ _ (by omega : (0 : Int) < 1)]
      have e4 : (1 : Int) - 1 = 0 := by omega
      rw [e4, scanCloseRel_zero]
      simp [Nat.add_comm]
    have hsum : p.length + cq.1.name.length + 1 + (cq.1.body.length + 1)
        = p.length + (CallForm.render cq.1).length := by
      omega
    have hslice : pslice (p ++ (cq.1.name ++ '(' :: (cq.1.body ++ ')' :: (cq.2 ++ renderSegs rest))))
          p.length (p.length + cq.1.name.length + 1 + (cq.1.body.length + 1))
        = CallForm.render cq.1 := by
      rw [hsum, e5]
      exact pslice_mid p (CallForm.render cq.1) (cq.2 ++ renderSegs rest)
    have hdrop2 : (p ++ (cq.1.name ++ '(' :: (cq.1.body ++ ')' :: (cq.2 ++ renderSegs rest)))).drop
          (p.length + cq.1.name.length + 1 + (cq.1.body.length + 1))
        = cq.2 ++ renderSegs rest := by
      rw [hsum, e5]
      have e6 : p.length + (CallForm.render cq.1).length
          = (p ++ CallForm.render cq.1).length := by
        simp
      rw [e6, List.drop_left]
    have hlen2 : (cq.2 ++ renderSegs rest).length ≤ f := by
      have h7 : (p ++ (cq.1.name ++ '(' :: (cq.1.body ++ ')' :: (cq.2 ++ renderSegs rest)))).length
          = p.length + cq.1.name.length + 1 + cq.1.body.length + 1
            + (cq.2 ++ renderSegs rest).length := by
        simp only [List.length_append, List.length_cons]
        omega
      rw [e] at hlen
      omega
    rw [extractLoopF_step_found f _ p.length (p.length + cq.1.name.length + 1)
      (cq.1.body.length + 1) hsearch (by rw [hdrop]; exact hscan)]
    rw [hslice, hdrop2, ih cq.2 f hq hrest_ok hlen2, List.map_cons]

/-- C7: for every input text consisting of head-free prose interspersed with
K well-balanced calls whose names are in the recognized vocabulary, the plan
extractor returns exactly K substrings, each one the complete balanced call
expression, in the same relative order as they occur in the input text. -/
theorem extract_balanced_calls (p0 : List Char)
    (segs : List (CallForm × List Char))
    (hp0 : reSearchHead p0 = none) (hok : segsOk segs) :
    extract_tool_calls (p0 ++ renderSegs segs)
      = segs.map (fun cq => CallForm.render cq.1) := by
  rw [extract_tool_calls]
  exact extractLoopF_renderSegs segs p0 _ hp0 hok (le_refl _)

def c7segs : List (CallForm × List Char) :=
  [(⟨"run_command".toList, "command=\"echo hello\"".toList⟩, " then ".toList),
   (⟨"write_file".toList,
      "file_path=\"a.py\", content=\"print( (1) )\"".toList⟩, " done.".toList)]

theorem extract_balanced_calls_witness :
    (reSearchHead "First set up the venv. ".toList = none ∧ segsOk c7segs) ∧
    extract_tool_calls ("First set up the venv. ".toList ++ renderSegs c7segs)
      = c7segs.map (fun cq => CallForm.render cq.1) :=
  ⟨⟨by decide, by decide⟩,
    extract_balanced_calls _ c7segs (by decide) (by decide)⟩

/-- C8: when the input text contains a recognized call whose opening
parenthesis is never matched (the rest of the text being paren-free prose
and balanced calls, so the depth scan never returns to zero), the extractor
does not abort: that occurrence is skipped, the cursor resumes just past the
unmatched opening parenthesis, and every well-formed recognized call
occurring after it is still extracted. -/
theorem extract_unmatched_recovery (p0 v g : List Char)
    (segs : List (CallForm × List Char))
    (hp0 : reSearchHead p0 = none) (hv : v ∈ toolVocab)
    (hg : reSearchHead g = none) (hgp : ∀ c ∈ g, c ≠ '(' ∧ c ≠ ')')
    (hok : segsOk segs) (hpf : proseParenFree segs) :
    extract_tool_calls (p0 ++ (v ++ '(' :: (g ++ renderSegs segs)))
      = segs.map (fun cq => CallForm.render cq.1) := by
  have hlen1 : 1 ≤ (p0 ++ (v ++ '(' :: (g ++ renderSegs segs))).length := by
    simp only [List.length_append, List.length_cons]
    omega
  rw [extract_tool_calls]
  obtain ⟨f, hf⟩ :
      ∃ f, (p0 ++ (v ++ '(' :: (g ++ renderSegs segs))).length = f + 1 :=
    ⟨(p0 ++ (v ++ '(' :: (g ++ renderSegs segs))).length - 1, by omega⟩
  rw [hf]
  have hsearch := reSearchHead_append p0 v (g ++ renderSegs segs) hp0 hv
  have hdrop : (p0 ++ (v ++ '(' :: (g ++ renderSegs segs))).drop
        (p0.length + v.length + 1)
      = g ++ renderSegs segs := by
    have e2 : p0 ++ (v ++ '(' :: (g ++ renderSegs segs))
        = (p0 ++ v ++ ['(']) ++ (g ++ renderSegs segs) := by
      simp
    have e3 : p0.length + v.length + 1 = (p0 ++ v ++ ['(']).length := by
      simp
      omega
    rw [e2, e3, List.drop_left]
  have hscan : scanCloseRel (g ++ renderSegs segs) 1 = none := by
    rw [scanCloseRel_nonparen g _ 1 (by omega) hgp,
      scanCloseRel_renderSegs segs 1 (by omega) hok hpf]
    simp
  rw [extractLoopF_step_skip f _ p0.length (p0.length + v.length + 1) hsearch
    (by rw [hdrop]; exact hscan)]
  rw [hdrop]
  apply extractLoopF_renderSegs segs g f hg hok
  have h7 : (p0 ++ (v ++ '(' :: (g ++ renderSegs segs))).length
      = p0.length + v.length + 1 + (g ++ renderSegs segs).length := by
    simp only [List.length_append, List.length_cons]
    omega
  omega

def c8segs : List (CallForm × List Char) :=
  [(⟨"write_file".toList, "file_path=\"b.txt\", content=\"hi\"".toList⟩,
    " end.".toList)]

theorem extract_unmatched_recovery_witness :
    ("run_command".toList ∈ toolVocab ∧ segsOk c8segs ∧ proseParenFree c8segs) ∧
    extract_tool_calls ("Do x. ".toList
        ++ ("run_command".toList ++ '(' :: ("echo oops ".toList ++ renderSegs c8segs)))
      = c8segs.map (fun cq => CallForm.render cq.1) :=
  ⟨⟨by decide, by decide, by decide⟩,
    extract_unmatched_recovery _ _ _ c8segs (by decide) (by decide) (by decide)
      (by decide) (by decide) (by decide)⟩

end Jarvis
